import Mathlib

/-!
The incremental fetch-and-archive worker of gitarchive.

A shallow embedding of three Go source files of the repository

* `git/http.go`            (`git.Fetch`, the smart-HTTP fetch driver),
* `index/index.go`         (`Index.AddFetch`, `Index.GetHaves`),
* `cmd/fetcher/fetcher.go` (`Fetcher.Fetch`, `Fetcher.Run`),

followed by theorems about them.

Modelling conventions.

* A Go `string` is an immutable sequence of bytes: `Str = List UInt8`.  `len` is the list
  length, `+` is append, `==` is equality, `<` is byte-wise lexicographic order.
* A Go `map[string]V` is an association list with pairwise distinct keys (`AList`).  The order
  of `entries` stands for the order in which one `range` loop happens to visit the map; every
  theorem below holds for every such order.
* A Go `error` is `Option Error`; `none` is `nil`.
* Everything the code obtains from outside (HTTP replies, the results of parsers that live in
  other files, SQL statement failures, the clock, the blob store writer) is an explicit input.
-/

namespace Gitarchive

/-! ## Strings -/

/-- A Go `string`: a sequence of bytes. -/
abbrev Str := List UInt8

/-- The bytes of an ASCII string literal of the source. -/
def lit (s : String) : Str := s.toList.map Char.toUInt8

/-- Go `strings.HasPrefix(s, p)`. -/
def HasPrefix (s p : Str) : Bool := p.isPrefixOf s

/-- Go `a < b` on strings: byte-wise lexicographic comparison. -/
def strLess : Str → Str → Bool
  | [], [] => false
  | [], _ :: _ => true
  | _ :: _, [] => false
  | a :: as, b :: bs => if a < b then true else if b < a then false else strLess as bs

/-- Go `a <= b` on strings. -/
def strLe (a b : Str) : Bool := !strLess b a

/-- Go `sort.Strings`: the input rearranged into increasing order.  (The order is total and
antisymmetric, so the sorted rearrangement is unique and the algorithm used is immaterial;
see `sortStrings_unique`.) -/
def sortStrings (l : List Str) : List Str := l.insertionSort (fun a b => strLe a b = true)

/-- The digits of `fmt.Sprintf("%d", n)` for a natural number. -/
def fmtNat (n : Nat) : Str := (Nat.toDigits 10 n).map Char.toUInt8

/-- Go `fmt.Sprintf("%d", z)`. -/
def fmtInt : Int → Str
  | Int.ofNat n => fmtNat n
  | Int.negSucc n => 45 :: fmtNat (n + 1)

/-- Go `fmt.Sprintf("%04x", n)` for `n ≥ 0`: lower-case hexadecimal, zero-padded on the left
to a width of at least four. -/
def fmt04x (n : Nat) : Str :=
  let d := (Nat.toDigits 16 n).map Char.toUInt8
  List.replicate (4 - d.length) 48 ++ d

/-- A Go `error` value that is not `nil`. -/
structure Error where
  msg : Str
deriving DecidableEq

/-! ## Maps -/

/-- A Go `map[string]V`. -/
abbrev GoMap (V : Type) := AList (fun _ : Str => V)

/-- Go `m[k]` for a `map[string]string`: the zero value `""` when the key is absent. -/
def GoMap.index (m : GoMap Str) (k : Str) : Str := (m.lookup k).getD []

/-- Go `_, ok := m[k]`. -/
def GoMap.has {V : Type} (m : GoMap V) (k : Str) : Bool := (m.lookup k).isSome

/-- The values of a map, in iteration order (`for _, v := range m`). -/
def GoMap.values {V : Type} (m : GoMap V) : List V := m.entries.map (fun e => e.2)

/-! ## `git/http.go` -/

/-- The Go struct `git.FetchResult`. -/
structure FetchResult where
  Refs : GoMap Str
  Wants : List Str
  PackRef : Str
  BytesFetched : Int

/-- An HTTP request handed to `http.DefaultClient.Do`. -/
structure HttpRequest where
  method : Str
  url : Str
  body : Str
deriving DecidableEq

/-- What the server (and `ParseUploadPackResponse`, which lives in another file) answer to
the `POST /git-upload-pack` request. -/
structure PostReply where
  doErr : Option Error
  status : Int
  packRef : Str
  bytesFetched : Int
  parseErr : Option Error

/-- Everything `git.Fetch` obtains from outside: failures of `http.NewRequest`, the reply to
the `GET`, the result of `ParseSmartResponse` on its body (a function of another file), and
the reply to the `POST` as a function of the request body. -/
structure HttpEnv where
  newGetErr : Option Error
  getErr : Option Error
  getStatus : Int
  parsed : Except Error (GoMap Str)
  newPostErr : Option Error
  post : Str → PostReply

/-- Lines 43-47 of `http.go`: `for name := range refs { if HasPrefix(name, "refs/pull/")
{ delete(refs, name) } }`.  Each key of the map is visited once. -/
def dropPulls (refs : GoMap Str) : GoMap Str :=
  refs.keys.foldl
    (fun m name => if HasPrefix name (lit "refs/pull/") then m.erase name else m) refs

/-- Lines 49-55 of `http.go`: `for name, ref := range refs { if _, ok := haves[ref]; ok
{ continue }; wants = append(wants, refs[name]) }`. -/
def collectWants (refs : GoMap Str) (haves : GoMap Unit) : List Str :=
  refs.entries.foldl
    (fun wants e => if haves.has e.2 then wants else wants ++ [refs.index e.1]) []

/-- One pass of the loop body of lines 69-80: the state is `(body, last)`. -/
def wantStep (st : Str × Str) (want : Str) : Str × Str :=
  if st.2 = want then st
  else
    let command := lit "want " ++ want
    let command :=
      if st.2 = [] then command ++ lit " ofs-delta side-band-64k thin-pack" else command
    let command := command ++ lit "\n"
    (st.1 ++ (fmt04x (command.length + 4) ++ command), want)

/-- One pass of the loop body of lines 82-85. -/
def haveStep (body : Str) (have_ : Str) : Str :=
  let command := lit "have " ++ have_ ++ lit "\n"
  body ++ (fmt04x (command.length + 4) ++ command)

/-- Lines 67-86 of `http.go`: the body of the `POST /git-upload-pack` request. -/
def requestBody (wants : List Str) (haves : GoMap Unit) : Str :=
  let body := (wants.foldl wantStep ([], [])).1
  let body := body ++ lit "0000"
  let body := haves.keys.foldl haveStep body
  body ++ lit "0009done\n"

/-- The outcome of one call of `git.Fetch`: the two return values and the HTTP requests that
were handed to the client, in order. -/
structure FetchOut where
  res : Option FetchResult
  err : Option Error
  requests : List HttpRequest

/-- The function `git.Fetch(gitURL, haves, uploader, msgW)` of `http.go`.  The uploader and
the message writer are only passed on to `ParseUploadPackResponse`, whose results are part of
`env`. -/
def Fetch (env : HttpEnv) (gitURL : Str) (haves : GoMap Unit) : FetchOut :=
  match env.newGetErr with
  | some e => ⟨none, some e, []⟩
  | none =>
  let get : HttpRequest := ⟨lit "GET", gitURL ++ lit "/info/refs?service=git-upload-pack", []⟩
  match env.getErr with
  | some e => ⟨none, some e, [get]⟩
  | none =>
  if env.getStatus ≠ 200 then
    ⟨none, some ⟨lit "GET /info/refs: " ++ fmtInt env.getStatus⟩, [get]⟩
  else
  match env.parsed with
  | Except.error e => ⟨none, some e, [get]⟩
  | Except.ok refs0 =>
  let refs := dropPulls refs0
  let wants := sortStrings (collectWants refs haves)
  let res : FetchResult := { Refs := refs, Wants := wants, PackRef := [], BytesFetched := 0 }
  if wants.length = 0 then ⟨some res, none, [get]⟩
  else
  let body := requestBody wants haves
  match env.newPostErr with
  | some e => ⟨none, some e, [get]⟩
  | none =>
  let post : HttpRequest := ⟨lit "POST", gitURL ++ lit "/git-upload-pack", body⟩
  let reply := env.post body
  match reply.doErr with
  | some e => ⟨none, some e, [get, post]⟩
  | none =>
  if reply.status ≠ 200 then
    ⟨none, some ⟨lit "POST /git-upload-pack: " ++ fmtInt reply.status⟩, [get, post]⟩
  else
    ⟨some { res with PackRef := reply.packRef, BytesFetched := reply.bytesFetched },
      reply.parseErr, [get, post]⟩

/-! ## `encoding/json` on strings -/

/-- A UTF-8 continuation byte. -/
def isCont (b : UInt8) : Bool := 0x80 ≤ b && b ≤ 0xBF

/-- Go `utf8.DecodeRuneInString` at a first byte `b0 ≥ 0x80` followed by `rest`: the length
of the valid UTF-8 encoding that starts there, or 0 when there is none (Go then reports
`RuneError` with size 1). -/
def utf8SeqLen (b0 : UInt8) (rest : Str) : Nat :=
  if 0xC2 ≤ b0 && b0 ≤ 0xDF then
    match rest with
    | s1 :: _ => if isCont s1 then 2 else 0
    | _ => 0
  else if 0xE0 ≤ b0 && b0 ≤ 0xEF then
    match rest with
    | s1 :: s2 :: _ =>
      if (if b0 = 0xE0 then 0xA0 else 0x80) ≤ s1 && s1 ≤ (if b0 = 0xED then 0x9F else 0xBF)
          && isCont s2 then 3
      else 0
    | _ => 0
  else if 0xF0 ≤ b0 && b0 ≤ 0xF4 then
    match rest with
    | s1 :: s2 :: s3 :: _ =>
      if (if b0 = 0xF0 then 0x90 else 0x80) ≤ s1 && s1 ≤ (if b0 = 0xF4 then 0x8F else 0xBF)
          && isCont s2 && isCont s3 then 4
      else 0
    | _ => 0
  else 0

/-- What a Go string becomes when `json.Marshal` writes it and `json.Unmarshal` reads it
back: every byte that does not belong to a valid UTF-8 encoding is replaced by U+FFFD (the
bytes EF BF BD); everything else is kept.  `skip` counts the bytes of a valid encoding that
are still to be copied. -/
def jsonCoerce : Nat → Str → Str
  | _, [] => []
  | skip + 1, b :: rest => b :: jsonCoerce skip rest
  | 0, b :: rest =>
    if b < 0x80 then b :: jsonCoerce 0 rest
    else
      match utf8SeqLen b rest with
      | 0 => 0xEF :: 0xBF :: 0xBD :: jsonCoerce 0 rest
      | n + 1 => b :: jsonCoerce n rest

/-- The string read back from the JSON text that `json.Marshal` writes for `s`. -/
def jsonString (s : Str) : Str := jsonCoerce 0 s

/-- The map read back from the JSON text that `json.Marshal(refs)` writes.  `Marshal` writes
the members in increasing order of the keys of `refs`, each key and value as `jsonString`
gives it; when two keys have become equal, the member written last is the one read back (so
`json.Unmarshal` does; a database that keeps the first of two equal keys differs there). -/
def jsonStored (refs : GoMap Str) : GoMap Str :=
  ((refs.entries.insertionSort (fun a b => strLe a.1 b.1 = true)).map
      (fun e => (⟨jsonString e.1, jsonString e.2⟩ : Σ _ : Str, Str))).foldl
    (fun m e => m.insert e.1 e.2) ∅

/-! ## `index/index.go` -/

/-- A row of the table `Fetches`.  The `Refs` column holds the JSON text that `json.Marshal`
produces from a `map[string]string`; the model keeps the map that this text encodes.  A
`PackID` is kept as a number (the Go code scans it into a string holding its decimal digits
and MySQL converts that string back on insert). -/
structure FetchRow where
  Name : Str
  Parent : Str
  Timestamp : Int
  Refs : GoMap Str
  PackID : Nat
  PackRef : Str

/-- A row of the table `PackDeps`. -/
structure PackDep where
  ID : Nat
  Dep : Nat
deriving DecidableEq

/-- The database behind `index.Index`: the two tables in insertion order and the next value
of the `AUTO_INCREMENT` column `PackID`. -/
structure Index where
  Fetches : List FetchRow
  PackDeps : List PackDep
  autoInc : Nat

/-- The prepared statement `selectQ`:
`SELECT Parent, Refs, PackID FROM Fetches WHERE Name = ? ORDER BY Timestamp DESC LIMIT 1`.
Among rows with the same greatest timestamp (SQL leaves the choice open) the one inserted
first is returned. -/
def selectQ (i : Index) (name : Str) : Option FetchRow :=
  (i.Fetches.filter (fun r => r.Name = name)).foldl
    (fun best r =>
      match best with
      | none => some r
      | some b => if b.Timestamp < r.Timestamp then some r else some b) none

/-- Failures of the SQL statements of one `AddFetch` call that are decided outside the
program (connection loss and the like); `insertDep k` is the failure of the `k`-th
`insertDepQ.Exec`, counted from 0. -/
structure AddFetchFaults where
  insertFetch : Option Error
  lastInsertId : Option Error
  insertDep : Nat → Option Error

/-- The loop of lines 103-108 of `index.go`, started at the `k`-th dependency. -/
def insertDeps (fault : Nat → Option Error) (packID : Nat) :
    List Nat → Nat → List PackDep → List PackDep × Option Error
  | [], _, rows => (rows, none)
  | dep :: rest, k, rows =>
    match fault k with
    | some e => (rows, some e)
    | none => insertDeps fault packID rest (k + 1) (rows ++ [⟨packID, dep⟩])

/-- The method `Index.AddFetch` of `index.go`: the new database state and the returned error.
The column `Refs` receives `json.Marshal(refs)` (which cannot fail on a
`map[string]string`); the row of the model holds the map read back from that text. -/
def AddFetch (i : Index) (faults : AddFetchFaults) (name parent : Str) (timestamp : Int)
    (refs : GoMap Str) (packRef : Str) (packDeps : List Nat) : Index × Option Error :=
  match faults.insertFetch with
  | some e => (i, some e)
  | none =>
  let packID := i.autoInc
  let i1 : Index :=
    { i with
      Fetches := i.Fetches ++ [⟨name, parent, timestamp, jsonStored refs, packID, packRef⟩]
      autoInc := i.autoInc + 1 }
  match faults.lastInsertId with
  | some e => (i1, some e)
  | none =>
  let out := insertDeps faults.insertDep packID packDeps 0 i1.PackDeps
  ({ i1 with PackDeps := out.1 }, out.2)

/-- Failures, other than `sql.ErrNoRows`, of the two `selectQ.QueryRow(..).Scan(..)` calls of
`GetHaves`. -/
structure GetHavesFaults where
  first : Option Error
  second : Option Error

/-- The three named results of `GetHaves`; `haves = none` is the `nil` map. -/
structure HavesOut where
  haves : Option (GoMap Unit)
  deps : List Nat
  err : Option Error

/-- The loop `for _, ref := range r { haves[ref] = struct{}{} }`. -/
def addValues (haves : GoMap Unit) (r : GoMap Str) : GoMap Unit :=
  r.values.foldl (fun h ref => h.insert ref ()) haves

/-- The method `Index.GetHaves` of `index.go`.  The second `json.Unmarshal(refs, &r)` decodes
into the map `r` that already holds the first record's references: Go keeps the existing
entries and overwrites those whose key occurs in the decoded object. -/
def GetHaves (i : Index) (faults : GetHavesFaults) (name : Str) : HavesOut :=
  match faults.first with
  | some e => ⟨none, [], some e⟩
  | none =>
  match selectQ i name with
  | none => ⟨none, [], none⟩
  | some row =>
  let r := row.Refs
  let haves := addValues ∅ r
  let deps := [row.PackID]
  if row.Parent ≠ [] then
    match faults.second with
    | some e => ⟨some haves, deps, some e⟩
    | none =>
    match selectQ i row.Parent with
    | none => ⟨some haves, deps, none⟩
    | some prow =>
    let r := prow.Refs ∪ r
    let haves := addValues haves r
    ⟨some haves, deps ++ [prow.PackID], none⟩
  else ⟨some haves, deps, none⟩

/-! ## `cmd/fetcher/fetcher.go` -/

/-- The value an `int64` holds after an arithmetic result `z`: two's-complement
wrap-around into the range from -2^63 to 2^63 - 1. -/
def wrapInt64 (z : Int) : Int :=
  (z + 9223372036854775808) % 18446744073709551616 - 9223372036854775808

/-- The `expvar.Map` of counters; each counter is an `expvar.Int`, an `int64`.  A counter
that was never set reads 0. -/
abbrev Counters := Str → Int

/-- Go `f.exp.Add(key, delta)`: `atomic.AddInt64` on the counter, which wraps around. -/
def Counters.add (c : Counters) (key : Str) (delta : Int) : Counters :=
  fun k => if k = key then wrapInt64 (c k + delta) else c k

/-- The state a `Fetcher` works on: the index database, the objects of the bucket (name and
content, newest first) and the counters. -/
structure Fetcher where
  i : Index
  bucket : List (Str × Str)
  exp : Counters

/-- The three results `refs, r, err` of the call `git.Fetch(url, haves, os.Stderr, bw)` made
by `fetcher.go` (a signature with three results, which the `git.Fetch` of `http.go` does not
have: the worker's driver is therefore an input of the model); `r = none` is the `nil`
reader (no pack was delivered). -/
structure DriverOut where
  refs : GoMap Str
  r : Option Str
  err : Option Error

/-- Everything one call of `Fetcher.Fetch` obtains from outside: SQL failures, the fetch
driver, the clock readings, and the failures of `io.Copy` and of the bucket writer's
`Close`. -/
structure WorkerEnv where
  getHavesFaults : GetHavesFaults
  gitFetch : Str → Option (GoMap Unit) → DriverOut
  unixNano : Int
  copyErr : Option Error
  closeErr : Option Error
  elapsed : Int
  now : Int
  addFetchFaults : AddFetchFaults

/-- The arguments of a call of `Index.AddFetch`. -/
structure AddFetchArgs where
  name : Str
  parent : Str
  timestamp : Int
  refs : GoMap Str
  packRef : Str
  packDeps : List Nat

/-- One call of `Fetcher.Fetch`: the state afterwards, the returned error, and a record of
the calls made on the way: the arguments handed to the fetch driver, and the arguments handed
to `AddFetch` together with the error `AddFetch` returned. -/
structure FetchRun where
  f : Fetcher
  err : Option Error
  gitFetchCall : Option (Str × Option (GoMap Unit))
  addFetchCall : Option (AddFetchArgs × Option Error)

/-- The method `Fetcher.Fetch(name, parent)` of `fetcher.go`.  Log lines are left out, and
the counter `fetchbytes`, which is only handed to the driver, is taken to exist (`Run` sets
it).  The variable `err` of the function is the one assigned by `GetHaves` and then by
`git.Fetch`; the `err` of `io.Copy` is a new variable of the inner block; the result of
`f.i.AddFetch(..)` is not assigned to anything.  The bucket writer creates its object when
`w.Close()` succeeds; the result of `w.Close()` is not looked at. -/
def Fetcher.Fetch (f : Fetcher) (env : WorkerEnv) (name parent : Str) : FetchRun :=
  let exp := f.exp.add (lit "fetches") 1
  let url := lit "https://github.com/" ++ name ++ lit ".git"
  let h := GetHaves f.i env.getHavesFaults url
  let err := h.err
  if err ≠ none then ⟨{ f with exp := exp }, err, none, none⟩
  else
  let exp := if h.haves.isNone then exp.add (lit "new") 1 else exp
  let exp := if parent ≠ [] then exp.add (lit "forks") 1 else exp
  let d := env.gitFetch url h.haves
  let err := d.err
  if err ≠ none then ⟨{ f with exp := exp }, err, some (url, h.haves), none⟩
  else
  let packRefName := url ++ lit "|" ++ fmtInt env.unixNano
  let finish (bucket : List (Str × Str)) (exp : Counters) (packRefName : Str) : FetchRun :=
    let urlParent := if parent ≠ [] then lit "https://github.com/" ++ parent ++ lit ".git" else []
    let a := AddFetch f.i env.addFetchFaults url urlParent env.now d.refs packRefName h.deps
    ⟨⟨a.1, bucket, exp⟩, err, some (url, h.haves),
      some (⟨url, urlParent, env.now, d.refs, packRefName, h.deps⟩, a.2)⟩
  match d.r with
  | some pack =>
    match env.copyErr with
    | some e => ⟨{ f with exp := exp }, some e, some (url, h.haves), none⟩
    | none =>
    let bucket := if env.closeErr = none then (packRefName, pack) :: f.bucket else f.bucket
    finish bucket (exp.add (lit "fetchtime") env.elapsed) packRefName
  | none =>
    finish f.bucket (exp.add (lit "emptypack") 1) (lit "EMPTY|" ++ packRefName)

/-! ## Concrete inputs used by the witnesses and counterexamples below -/

/-- A 40-digit object id. -/
def oidA : Str := lit "aaaaaaaaaaaaaaaaaaaaaaaaaaaaaaaaaaaaaaa1"

/-- A second 40-digit object id. -/
def oidB : Str := lit "bbbbbbbbbbbbbbbbbbbbbbbbbbbbbbbbbbbbbbb2"

/-- The fetch URL of `alice/repo`. -/
def urlAlice : Str := lit "https://github.com/alice/repo.git"

/-- An advertisement in which two references point at the same object. -/
def advTwoHeads : GoMap Str :=
  AList.insert (lit "HEAD") oidA (AList.insert (lit "refs/heads/main") oidA ∅)

/-- The advertisement of the fresh-clone scenario: one branch and one pull reference. -/
def advFresh : GoMap Str :=
  AList.insert (lit "refs/heads/main") oidA (AList.insert (lit "refs/pull/42/head") oidB ∅)

/-- A server that answers both requests with status 200; the advertisement parses to `M`. -/
def envOf (M : GoMap Str) : HttpEnv :=
  ⟨none, none, 200, Except.ok M, none, fun _ => ⟨none, 200, lit "pack", 4, none⟩⟩

/-- The result of `git.Fetch` on `advTwoHeads` with no haves. -/
def resTwoHeads : FetchResult := ⟨dropPulls advTwoHeads, [oidA, oidA], lit "pack", 4⟩

/-- A have-set holding `oidA`. -/
def havesA : GoMap Unit := AList.insert oidA () ∅

/-! ## The request body in the words of the specification -/

/-- A lower-case hexadecimal digit. -/
def hexDigit (d : Nat) : UInt8 := if d < 10 then UInt8.ofNat (48 + d) else UInt8.ofNat (87 + d)

/-- Specification §4.1: a frame is its payload prefixed by four lower-case hexadecimal digits
giving the payload length plus 4. -/
def specFrame (payload : Str) : Str :=
  let n := payload.length + 4
  [hexDigit (n / 4096 % 16), hexDigit (n / 256 % 16), hexDigit (n / 16 % 16), hexDigit (n % 16)]
    ++ payload

/-- Concatenation of a list of strings. -/
def catStrs : List Str → Str
  | [] => []
  | s :: ss => s ++ catStrs ss

/-- Specification §4.4 step 5, first item: one frame `want <oid>\n` per want, the first of
them with the capability list appended before the newline. -/
def specWantFrames : List Str → Str
  | [] => []
  | w :: ws =>
    specFrame (lit "want " ++ w ++ lit " ofs-delta side-band-64k thin-pack" ++ lit "\n") ++
      catStrs (ws.map (fun w => specFrame (lit "want " ++ w ++ lit "\n")))

/-- Specification §4.4 step 5: the want frames, the flush packet `0000`, one frame
`have <oid>\n` per have, and `0009done\n`. -/
def specBody (wants haves : List Str) : Str :=
  specWantFrames wants ++ lit "0000" ++
    catStrs (haves.map (fun h => specFrame (lit "have " ++ h ++ lit "\n"))) ++ lit "0009done\n"

/-- A byte that is a lower-case hexadecimal digit. -/
def isHexByte (c : UInt8) : Bool := (48 ≤ c && c ≤ 57) || (97 ≤ c && c ≤ 102)

/-- An object id in the form the specification gives it: 40 lower-case hexadecimal digits. -/
def isOid (s : Str) : Bool := s.length == 40 && s.all isHexByte

/-- The elements of a list that differ from their predecessor, the predecessor of the first
element being `last`. -/
def distinctFrom : Str → List Str → List Str
  | _, [] => []
  | last, w :: ws => if last = w then distinctFrom w ws else w :: distinctFrom w ws

/-- An advertisement with two branches at different objects and one pull reference. -/
def advTwoBranches : GoMap Str :=
  AList.insert (lit "refs/heads/main") oidB
    (AList.insert (lit "refs/heads/dev") oidA (AList.insert (lit "refs/pull/7/head") oidB ∅))

/-- A third 40-digit object id. -/
def oidC : Str := lit "cccccccccccccccccccccccccccccccccccccccc"

/-- A have-set holding `oidC`. -/
def havesC : GoMap Unit := AList.insert oidC () ∅

/-- The request body of the fresh-clone scenario. -/
def bodyFresh : Str :=
  lit "0054want aaaaaaaaaaaaaaaaaaaaaaaaaaaaaaaaaaaaaaa1 ofs-delta side-band-64k thin-pack\n00000009done\n"

/-! ## The index in the words of the specification -/

/-- Row `row` is a most recent record of `name`: a row of `Fetches` with that name whose
timestamp is not exceeded by any other row of that name. -/
def IsLatest (i : Index) (name : Str) (row : FetchRow) : Prop :=
  row ∈ i.Fetches ∧ row.Name = name ∧
    ∀ r ∈ i.Fetches, r.Name = name → r.Timestamp ≤ row.Timestamp

/-- Specification §4.5, `get_haves`: the prior records that are read, namely the most recent
record of `name` and, if that record has a non-empty parent, the most recent record of that
parent (one hop only). -/
def priorRecords (i : Index) (name : Str) : List FetchRow :=
  match selectQ i name with
  | none => []
  | some row => row :: (if row.Parent = [] then [] else (selectQ i row.Parent).toList)

/-- The invariants of the database that the schema and `AddFetch` maintain: `PackID` is a
unique key, and every `PackID` and every `PackDeps.ID` was handed out by the
`AUTO_INCREMENT` counter. -/
structure Index.WF (i : Index) : Prop where
  packid_lt : ∀ r ∈ i.Fetches, r.PackID < i.autoInc
  packid_unique : i.Fetches.Pairwise (fun a b => a.PackID ≠ b.PackID)
  dep_lt : ∀ d ∈ i.PackDeps, d.ID < i.autoInc

/-! ## Concrete inputs for the worker -/

/-- The empty database; MySQL hands out `AUTO_INCREMENT` values from 1. -/
def ixEmpty : Index := ⟨[], [], 1⟩

/-- No SQL statement of `AddFetch` fails. -/
def noFaults : AddFetchFaults := ⟨none, none, fun _ => none⟩

/-- The fetch URL of `bob/orig`. -/
def urlBob : Str := lit "https://github.com/bob/orig.git"

/-- The fetch URL of `alice/fork`. -/
def urlFork : Str := lit "https://github.com/alice/fork.git"

/-- A reference snapshot of `bob/orig`. -/
def refsBob : GoMap Str := AList.insert (lit "refs/heads/main") oidB ∅

/-- A database holding one record, for `bob/orig`, with pack id 1. -/
def ixBob : Index :=
  ⟨[⟨urlBob, [], 10, refsBob, 1, lit "https://github.com/bob/orig.git|9"⟩], [], 2⟩

/-- A fetcher on database `i` with an empty bucket and all counters at 0. -/
def fetcherOf (i : Index) : Fetcher := ⟨i, [], fun _ => 0⟩

/-- An environment without failures in which the driver returns `refs` and the pack `r`. -/
def envDriver (refs : GoMap Str) (r : Option Str) : WorkerEnv :=
  ⟨⟨none, none⟩, fun _ _ => ⟨refs, r, none⟩, 1500, none, none, 7, 20, noFaults⟩

/-- As `envDriver`, but the `INSERT INTO Fetches` of `AddFetch` fails. -/
def envInsertFails : WorkerEnv :=
  { envDriver refsBob (some (lit "PACK")) with
    addFetchFaults := ⟨some ⟨lit "connection lost"⟩, none, fun _ => none⟩ }

/-- As `envDriver`, but the first `INSERT INTO PackDeps` of `AddFetch` fails. -/
def envDepFails : WorkerEnv :=
  { envDriver refsBob (some (lit "PACK")) with
    addFetchFaults := ⟨none, none, fun _ => some ⟨lit "connection lost"⟩⟩ }

/-- The database after `a/b` was fetched once as a fork of itself. -/
def ixSelf : Index :=
  (Fetcher.Fetch (fetcherOf ixEmpty) (envDriver refsBob (some (lit "PACK"))) (lit "a/b")
    (lit "a/b")).f.i

/-! ## The sections of the request body -/

/-- Lines 67-81 of `http.go`: the want lines and the flush packet, that is, the request body
up to and including `0000`. -/
def wantSection (wants : List Str) : Str :=
  (wants.foldl wantStep ([], [])).1 ++ lit "0000"

/-- Lines 82-85 of `http.go`: the have lines, for the have-set visited in the order `hs`. -/
def haveSection (hs : List Str) : Str := hs.foldl haveStep []

/-- The frame that `fmt.Sprintf("%04x%s", len(command)+4, command)` writes. -/
def goFrame (command : Str) : Str := fmt04x (command.length + 4) ++ command

/-- The want lines for a list of object ids, as the code frames them: the first with the
capability list before the newline, the others without. -/
def goWantFrames : List Str → Str
  | [] => []
  | w :: ws =>
    goFrame (lit "want " ++ w ++ lit " ofs-delta side-band-64k thin-pack" ++ lit "\n") ++
      catStrs (ws.map (fun w => goFrame (lit "want " ++ w ++ lit "\n")))

/-- The advertisement is fetched and parsed to `M`, and the `POST` request can be built. -/
def Advertised (env : HttpEnv) (M : GoMap Str) : Prop :=
  env.newGetErr = none ∧ env.getErr = none ∧ env.getStatus = 200 ∧
    env.parsed = Except.ok M ∧ env.newPostErr = none

/-- The map `advTwoBranches`, visited in another order. -/
def advTwoBranchesRev : GoMap Str :=
  AList.insert (lit "refs/pull/7/head") oidB
    (AList.insert (lit "refs/heads/dev") oidA (AList.insert (lit "refs/heads/main") oidB ∅))

/-- An advertisement whose only reference carries the empty string as object id. -/
def advEmptyOid : GoMap Str := AList.insert (lit "refs/heads/main") [] ∅

/-- An advertisement with one reference at the empty string and one at `oidA`. -/
def advEmptyAndA : GoMap Str :=
  AList.insert (lit "refs/heads/main") [] (AList.insert (lit "refs/heads/dev") oidA ∅)

/-! ## `cmd/fetcher/fetcher.go`: the loop of `Fetcher.Run` -/

/-- Go `f.exp.Set(key, &expvar.Int{})`: the counter is replaced by a fresh one at 0. -/
def Counters.reset (c : Counters) (key : Str) : Counters :=
  fun k => if k = key then 0 else c k

/-- What one pass through the loop of `Run` obtains from outside: the value that
`atomic.LoadUint32(&f.closing)` reads (the flag is stored by `Stop`, from another goroutine),
the answer of the schedule gate `f.schedule.Get(time.Now())`, the three results of
`f.q.Pop()`, and the environment of the call of `Fetcher.Fetch`. -/
structure IterEnv where
  closing : Nat
  gate : Bool
  popName : Str
  popParent : Str
  popErr : Option Error
  fetchEnv : WorkerEnv

/-- The calls that `Run` makes, in order: the two waits, the queue pop with its results, and
the call of `Fetcher.Fetch` with the error it returned. -/
inductive Event where
  | sleep
  | pop (name parent : Str) (err : Option Error)
  | idle
  | fetch (name parent : Str) (err : Option Error)
deriving DecidableEq

/-- One pass through the loop, or the end of `Run`: the state afterwards, the calls made, and
`result = some e` when `Run` returns `e` in this pass (`none`: the loop goes on). -/
structure IterOut where
  f : Fetcher
  events : List Event
  result : Option (Option Error)

/-- One evaluation of the loop condition of `Run` followed, when it holds, by one pass
through the loop body (lines 36-58 of `fetcher.go`).  `interruptableSleep` only waits. -/
def RunIter (f : Fetcher) (it : IterEnv) : IterOut :=
  if it.closing ≠ 0 then ⟨f, [], some none⟩
  else if !it.gate then
    ⟨{ f with exp := f.exp.add (lit "sleep") 1 }, [Event.sleep], none⟩
  else
  let pop := Event.pop it.popName it.popParent it.popErr
  match it.popErr with
  | some e => ⟨f, [pop], some (some e)⟩
  | none =>
  if it.popName = [] then
    ⟨{ f with exp := f.exp.add (lit "emptyqueue") 1 }, [pop, Event.idle], none⟩
  else
  let run := Fetcher.Fetch f it.fetchEnv it.popName it.popParent
  match run.err with
  | some e => ⟨run.f, [pop, Event.fetch it.popName it.popParent (some e)], some (some e)⟩
  | none => ⟨run.f, [pop, Event.fetch it.popName it.popParent none], none⟩

/-- The loop of `Run` over the passes whose outside inputs are given; `events` are the calls
made before.  When the inputs are used up and `Run` has not returned, `result` is `none`. -/
def runLoop : Fetcher → List IterEnv → List Event → IterOut
  | f, [], events => ⟨f, events, none⟩
  | f, it :: its, events =>
    let o := RunIter f it
    match o.result with
    | some r => ⟨o.f, events ++ o.events, some r⟩
    | none => runLoop o.f its (events ++ o.events)

/-- The method `Fetcher.Run` of `fetcher.go`, run over the passes whose outside inputs are
given in `its`. -/
def Fetcher.Run (f : Fetcher) (its : List IterEnv) : IterOut :=
  runLoop { f with exp := f.exp.reset (lit "fetchbytes") } its []

/-- A pass in which the flag is clear, the gate is open and the queue yields `name` (with no
parent); the fetch runs in `env`. -/
def iterPop (name : Str) (popErr : Option Error) (env : WorkerEnv) : IterEnv :=
  ⟨0, true, name, [], popErr, env⟩

/-- A pass in which the flag is clear and the gate is closed. -/
def iterQuiet : IterEnv := ⟨0, false, lit "alice/repo", [], none, envDriver refsBob none⟩

/-- A pass in which the flag is found set. -/
def iterClosing : IterEnv := ⟨1, true, lit "alice/repo", [], none, envDriver refsBob none⟩

/-- An environment in which the fetch driver fails. -/
def envDriverFails : WorkerEnv :=
  ⟨⟨none, none⟩, fun _ _ => ⟨∅, none, some ⟨lit "GET /info/refs: 404"⟩⟩, 1500, none, none, 7,
    20, noFaults⟩

/-! ## Strings and maps that `json.Marshal` leaves unchanged -/

/-- The string is valid UTF-8: `json.Marshal` writes it, and `json.Unmarshal` reads it back,
unchanged. -/
def jsonSafe (s : Str) : Bool := jsonString s == s

/-- A reference name that is not valid UTF-8: `refs/heads/` followed by the byte FF. -/
def badName : Str := lit "refs/heads/" ++ [0xFF]

/-- An advertisement whose only reference has the name `badName`. -/
def advBadName : GoMap Str := AList.insert badName oidA ∅

/-- A fetcher whose counters all hold the largest `int64`. -/
def fetcherAtMax : Fetcher := ⟨ixEmpty, [], fun _ => 9223372036854775807⟩

/-! ## The order on strings and `sort.Strings` -/

theorem byte_eq_of_toNat (a b : UInt8) (h : a.toNat = b.toNat) : a = b := by
  cases a with | mk a => cases b with | mk b =>
  congr 1
  exact BitVec.eq_of_toNat_eq h

theorem byte_lt_iff (a b : UInt8) : a < b ↔ a.toNat < b.toNat := Iff.rfl

theorem strLess_irrefl (a : Str) : strLess a a = false := by
  induction a with
  | nil => rfl
  | cons x xs ih => simp [strLess, ih, byte_lt_iff]

theorem strLess_asymm : ∀ (a b : Str), strLess a b = true → strLess b a = false
  | [], [], h => by simp [strLess] at h
  | [], _ :: _, _ => by simp [strLess]
  | _ :: _, [], h => by simp [strLess] at h
  | x :: xs, y :: ys, h => by
    have ih := strLess_asymm xs ys
    simp only [strLess, byte_lt_iff] at h ⊢
    split_ifs at h ⊢ <;> first | omega | simp_all

theorem strLess_trans : ∀ (a b c : Str), strLess a b = true → strLess b c = true →
    strLess a c = true
  | [], _, [], _, h2 => by cases ‹Str› <;> simp [strLess] at h2
  | [], _, _ :: _, _, _ => by simp [strLess]
  | _ :: _, [], _, h1, _ => by simp [strLess] at h1
  | _ :: _, _ :: _, [], _, h2 => by simp [strLess] at h2
  | x :: xs, y :: ys, z :: zs, h1, h2 => by
    have ih := strLess_trans xs ys zs
    simp only [strLess, byte_lt_iff] at h1 h2 ⊢
    split_ifs at h1 h2 ⊢ <;> first | omega | simp_all

theorem strLess_connex : ∀ (a b : Str), strLess a b = false → strLess b a = false → a = b
  | [], [], _, _ => rfl
  | [], _ :: _, h, _ => by simp [strLess] at h
  | _ :: _, [], _, h => by simp [strLess] at h
  | x :: xs, y :: ys, h1, h2 => by
    have ih := strLess_connex xs ys
    simp only [strLess, byte_lt_iff] at h1 h2
    split_ifs at h1 h2
    have hxy : x = y := byte_eq_of_toNat x y (by omega)
    rw [hxy, ih h1 h2]

theorem strLe_total (a b : Str) : strLe a b = true ∨ strLe b a = true := by
  unfold strLe
  cases h : strLess b a
  · simp
  · simp [strLess_asymm b a h]

theorem strLe_trans (a b c : Str) (h1 : strLe a b = true) (h2 : strLe b c = true) :
    strLe a c = true := by
  unfold strLe at *
  cases h : strLess c a
  · rfl
  · simp only [Bool.not_eq_true', Bool.not_eq_true] at h1 h2
    cases hab : strLess a b
    · have := strLess_connex a b hab h1
      subst this
      rw [h] at h2; cases h2
    · have := strLess_trans c a b h hab
      rw [this] at h2; cases h2

theorem strLe_antisymm (a b : Str) (h1 : strLe a b = true) (h2 : strLe b a = true) : a = b := by
  unfold strLe at *
  simp only [Bool.not_eq_true', Bool.not_eq_true] at h1 h2
  exact strLess_connex a b h2 h1

theorem strLess_iff_le_ne (a b : Str) : strLess a b = true ↔ strLe a b = true ∧ a ≠ b := by
  constructor
  · intro h
    refine ⟨by simp [strLe, strLess_asymm a b h], ?_⟩
    rintro rfl
    rw [strLess_irrefl] at h; cases h
  · rintro ⟨h1, h2⟩
    cases h : strLess a b
    · exfalso; apply h2
      unfold strLe at h1
      simp only [Bool.not_eq_true', Bool.not_eq_true] at h1
      exact strLess_connex a b h h1
    · rfl

theorem strLess_of_le_of_less (a b c : Str) (h1 : strLe a b = true) (h2 : strLess b c = true) :
    strLess a c = true := by
  rw [strLess_iff_le_ne] at h2 ⊢
  refine ⟨strLe_trans a b c h1 h2.1, ?_⟩
  rintro rfl
  exact h2.2 (strLe_antisymm b a h2.1 h1)

instance strLe_isTotal : IsTotal Str (fun a b => strLe a b = true) := ⟨strLe_total⟩

instance strLe_isTrans : IsTrans Str (fun a b => strLe a b = true) := ⟨strLe_trans⟩

instance strLe_isAntisymm : IsAntisymm Str (fun a b => strLe a b = true) := ⟨strLe_antisymm⟩

theorem sortStrings_sorted (l : List Str) :
    (sortStrings l).Sorted (fun a b => strLe a b = true) :=
  List.sorted_insertionSort _ l

theorem sortStrings_perm (l : List Str) : (sortStrings l).Perm l :=
  List.perm_insertionSort _ l

/-- Any increasing rearrangement of `l` is `sortStrings l`: the model of `sort.Strings` does
not depend on the sorting algorithm. -/
theorem sortStrings_unique (l l' : List Str) (hp : l'.Perm l)
    (hs : l'.Sorted (fun a b => strLe a b = true)) : l' = sortStrings l :=
  List.eq_of_perm_of_sorted (hp.trans (sortStrings_perm l).symm) hs (sortStrings_sorted l)

/-! ## Maps: deleting the pull references and collecting the wants -/

theorem kerase_eq_filter (a : Str) :
    ∀ (l : List (Σ _ : Str, Str)), l.NodupKeys →
      List.kerase a l = l.filter (fun e => decide (e.1 ≠ a))
  | [], _ => rfl
  | e :: l, nd => by
    rw [List.nodupKeys_cons] at nd
    by_cases h : a = e.1
    · rw [List.kerase_cons_eq h]
      have hnot : a ∉ l.keys := h ▸ nd.1
      have e1 := kerase_eq_filter a l nd.2
      rw [List.kerase_of_not_mem_keys hnot] at e1
      rw [List.filter_cons_of_neg (by simp [h])]
      exact e1
    · rw [List.kerase_cons_ne h, kerase_eq_filter a l nd.2]
      have h2 : e.1 ≠ a := fun x => h x.symm
      simp [List.filter_cons, h2]

theorem erase_entries (a : Str) (m : GoMap Str) :
    (m.erase a).entries = m.entries.filter (fun e => decide (e.1 ≠ a)) :=
  kerase_eq_filter a m.entries m.nodupKeys

theorem foldl_erase_entries (p : Str → Bool) :
    ∀ (ks : List Str) (m : GoMap Str),
      (ks.foldl (fun m name => if p name then m.erase name else m) m).entries =
        m.entries.filter (fun e => !(p e.1 && decide (e.1 ∈ ks)))
  | [], m => by simp
  | k :: ks, m => by
    rw [List.foldl_cons, foldl_erase_entries p ks]
    by_cases hk : p k = true
    · simp only [hk, if_true, erase_entries, List.filter_filter]
      apply List.filter_congr
      intro e _
      by_cases he : e.1 = k
      · simp [he, hk]
      · simp [he]
    · simp only [hk]
      apply List.filter_congr
      intro e _
      by_cases he : e.1 = k
      · simp [he, hk]
      · simp [he]

/-- The deletion loop leaves exactly the entries whose name does not begin with
`refs/pull/`, in their original order. -/
theorem dropPulls_entries (m : GoMap Str) :
    (dropPulls m).entries = m.entries.filter (fun e => !HasPrefix e.1 (lit "refs/pull/")) := by
  unfold dropPulls
  rw [foldl_erase_entries (fun name => HasPrefix name (lit "refs/pull/"))]
  apply List.filter_congr
  intro e he
  have : e.1 ∈ m.keys := List.mem_keys_of_mem he
  simp [this]

theorem dropPulls_lookup (m : GoMap Str) (name : Str) :
    (dropPulls m).lookup name =
      if HasPrefix name (lit "refs/pull/") then none else m.lookup name := by
  cases hv : (dropPulls m).lookup name with
  | none =>
    split_ifs with hp
    · rfl
    · cases hm : m.lookup name with
      | none => rfl
      | some v =>
        exfalso
        rw [AList.lookup_eq_none, AList.mem_keys] at hv
        apply hv
        have hmem : (⟨name, v⟩ : Σ _ : Str, Str) ∈ (dropPulls m).entries := by
          rw [dropPulls_entries, List.mem_filter]
          exact ⟨AList.mem_lookup_iff.mp hm, by simp [hp]⟩
        exact List.mem_keys_of_mem hmem
  | some v =>
    have hmem := AList.mem_lookup_iff.mp hv
    rw [dropPulls_entries, List.mem_filter] at hmem
    have hp : HasPrefix name (lit "refs/pull/") = false := by simpa using hmem.2
    simp only [hp, Bool.false_eq_true, if_false]
    exact (AList.mem_lookup_iff.mpr hmem.1).symm

theorem index_of_mem (m : GoMap Str) (e : Σ _ : Str, Str) (he : e ∈ m.entries) :
    m.index e.1 = e.2 := by
  have : m.lookup e.1 = some e.2 := AList.mem_lookup_iff.mpr he
  simp [GoMap.index, this]

theorem collectWants_foldl (refs : GoMap Str) (haves : GoMap Unit) :
    ∀ (l : List (Σ _ : Str, Str)) (acc : List Str), (∀ e ∈ l, e ∈ refs.entries) →
      l.foldl (fun wants e => if haves.has e.2 then wants else wants ++ [refs.index e.1]) acc =
        acc ++ (l.filter (fun e => !haves.has e.2)).map (fun e => e.2)
  | [], acc, _ => by simp
  | e :: l, acc, h => by
    have he : e ∈ refs.entries := h e (List.mem_cons_self _ _)
    have hl : ∀ x ∈ l, x ∈ refs.entries := fun x hx => h x (List.mem_cons_of_mem _ hx)
    rw [List.foldl_cons, collectWants_foldl refs haves l _ hl]
    cases hh : haves.has e.2
    · simp [List.filter_cons, hh, index_of_mem refs e he]
    · simp [List.filter_cons, hh]

/-- The wants collected by the second loop: one entry per reference whose value is not in the
have-set, in iteration order. -/
theorem collectWants_eq (refs : GoMap Str) (haves : GoMap Unit) :
    collectWants refs haves =
      (refs.entries.filter (fun e => !haves.has e.2)).map (fun e => e.2) := by
  unfold collectWants
  rw [collectWants_foldl refs haves refs.entries [] (fun _ h => h)]
  simp

theorem mem_collectWants (refs : GoMap Str) (haves : GoMap Unit) (x : Str) :
    x ∈ collectWants refs haves ↔
      ∃ name, refs.lookup name = some x ∧ haves.has x = false := by
  rw [collectWants_eq, List.mem_map]
  constructor
  · rintro ⟨e, he, rfl⟩
    rw [List.mem_filter] at he
    exact ⟨e.1, AList.mem_lookup_iff.mpr he.1, by simpa using he.2⟩
  · rintro ⟨name, hl, hh⟩
    refine ⟨⟨name, x⟩, ?_, rfl⟩
    rw [List.mem_filter]
    exact ⟨AList.mem_lookup_iff.mp hl, by simp [hh]⟩

/-! ## The shape of the result of `git.Fetch` -/

/-- Whenever `git.Fetch` returns a result, the advertisement was parsed, and the result holds
the retained references and the sorted wants. -/
theorem Fetch_res (env : HttpEnv) (gitURL : Str) (haves : GoMap Unit) (res : FetchResult)
    (h : (Fetch env gitURL haves).res = some res) :
    ∃ M, env.parsed = Except.ok M ∧ res.Refs = dropPulls M ∧
      res.Wants = sortStrings (collectWants (dropPulls M) haves) := by
  unfold Fetch at h
  cases h1 : env.newGetErr with
  | some e => simp [h1] at h
  | none =>
  cases h2 : env.getErr with
  | some e => simp [h1, h2] at h
  | none =>
  by_cases h3 : env.getStatus = 200
  swap
  · simp [h1, h2, h3] at h
  cases h4 : env.parsed with
  | error e => simp [h1, h2, h3, h4] at h
  | ok M =>
  refine ⟨M, rfl, ?_⟩
  simp only [h1, h2, h3, h4, ne_eq, not_true_eq_false, if_false] at h
  by_cases hw : (sortStrings (collectWants (dropPulls M) haves)).length = 0
  · simp only [hw, if_true, Option.some.injEq] at h
    subst h; exact ⟨rfl, rfl⟩
  simp only [hw, if_false] at h
  cases h5 : env.newPostErr with
  | some e => simp [h5] at h
  | none =>
  simp only [h5] at h
  cases h6 : (env.post (requestBody (sortStrings (collectWants (dropPulls M) haves))
      haves)).doErr with
  | some e => simp [h6] at h
  | none =>
  simp only [h6] at h
  by_cases h7 : (env.post (requestBody (sortStrings (collectWants (dropPulls M) haves))
      haves)).status = 200
  · simp only [h7, not_true_eq_false, if_false, Option.some.injEq] at h
    subst h; exact ⟨rfl, rfl⟩
  · simp [h7] at h

/-! ## Claims about `git.Fetch` -/

/-- C4, as stated, fails: when two retained references carry the same object id, the list
`FetchResult.Wants` holds that id twice, so it is not strictly ascending (not
de-duplicated). -/
theorem C4_counterexample :
    (Fetch (envOf advTwoHeads) urlAlice ∅).res = some resTwoHeads ∧
      resTwoHeads.Wants = [oidA, oidA] ∧
      ¬ resTwoHeads.Wants.Pairwise (fun a b => strLess a b = true) := by
  refine ⟨rfl, rfl, by decide⟩

/-- C4, amended: the list `FetchResult.Wants` that `git.Fetch` returns is ascending in
byte-wise order (not strictly), it holds one entry per retained reference whose object id is
not in the have-set (it is a rearrangement of those values, repetitions included), and an
object id is in it exactly when some reference whose name does not begin with `refs/pull/`
has that value and the have-set does not contain it. -/
theorem C4_wants_sorted_one_per_ref (env : HttpEnv) (gitURL : Str) (haves : GoMap Unit)
    (res : FetchResult) (M : GoMap Str) (hM : env.parsed = Except.ok M)
    (h : (Fetch env gitURL haves).res = some res) :
    res.Wants.Sorted (fun a b => strLe a b = true) ∧
      res.Wants.Perm ((M.entries.filter
        (fun e => !HasPrefix e.1 (lit "refs/pull/") && !haves.has e.2)).map (fun e => e.2)) ∧
      ∀ x, x ∈ res.Wants ↔
        ∃ name, HasPrefix name (lit "refs/pull/") = false ∧ M.lookup name = some x ∧
          haves.has x = false := by
  obtain ⟨M', hM', -, hW⟩ := Fetch_res env gitURL haves res h
  rw [hM] at hM'
  cases hM'
  rw [hW]
  refine ⟨sortStrings_sorted _, ?_, ?_⟩
  · refine (sortStrings_perm _).trans ?_
    rw [collectWants_eq, dropPulls_entries, List.filter_filter]
    apply List.Perm.of_eq
    congr 1
    apply List.filter_congr
    intro e _
    exact Bool.and_comm _ _
  · intro x
    rw [(sortStrings_perm _).mem_iff, mem_collectWants]
    constructor
    · rintro ⟨name, hl, hh⟩
      rw [dropPulls_lookup] at hl
      split_ifs at hl with hp
      exact ⟨name, by simpa using hp, hl, hh⟩
    · rintro ⟨name, hp, hl, hh⟩
      exact ⟨name, by rw [dropPulls_lookup]; simp [hp, hl], hh⟩

/-- Witness for the amended C4: the advertisement with two heads at one object. -/
theorem C4_wants_sorted_one_per_ref_witness :
    resTwoHeads.Wants.Sorted (fun a b => strLe a b = true) ∧
      resTwoHeads.Wants.Perm ((advTwoHeads.entries.filter
        (fun e => !HasPrefix e.1 (lit "refs/pull/") && !(∅ : GoMap Unit).has e.2)).map
          (fun e => e.2)) ∧
      ∀ x, x ∈ resTwoHeads.Wants ↔
        ∃ name, HasPrefix name (lit "refs/pull/") = false ∧
          advTwoHeads.lookup name = some x ∧ (∅ : GoMap Unit).has x = false :=
  C4_wants_sorted_one_per_ref (envOf advTwoHeads) urlAlice ∅ resTwoHeads advTwoHeads rfl rfl

/-- C8: when the advertisement is fetched and parsed to `M`, and every object id of a
reference whose name does not begin with `refs/pull/` is in the have-set (in particular when
`M` has no reference at all), `git.Fetch` hands only the `GET` to the HTTP client (no `POST`),
and returns a nil error with a result whose references are `M` without the `refs/pull/`
names, whose wants are empty, whose pack reference is the empty string and whose byte count
is 0. -/
theorem C8_all_haves_no_post (env : HttpEnv) (gitURL : Str) (haves : GoMap Unit)
    (M : GoMap Str) (h1 : env.newGetErr = none) (h2 : env.getErr = none)
    (h3 : env.getStatus = 200) (hM : env.parsed = Except.ok M)
    (hall : ∀ e ∈ M.entries, HasPrefix e.1 (lit "refs/pull/") = false → haves.has e.2 = true) :
    ∃ res, (Fetch env gitURL haves).res = some res ∧ (Fetch env gitURL haves).err = none ∧
      (∀ name, res.Refs.lookup name =
        if HasPrefix name (lit "refs/pull/") then none else M.lookup name) ∧
      res.Wants = [] ∧ res.PackRef = [] ∧ res.BytesFetched = 0 ∧
      (Fetch env gitURL haves).requests =
        [⟨lit "GET", gitURL ++ lit "/info/refs?service=git-upload-pack", []⟩] ∧
      ∀ q ∈ (Fetch env gitURL haves).requests, q.method ≠ lit "POST" := by
  have hcw : collectWants (dropPulls M) haves = [] := by
    rw [List.eq_nil_iff_forall_not_mem]
    intro x hx
    rw [mem_collectWants] at hx
    obtain ⟨name, hl, hh⟩ := hx
    rw [dropPulls_lookup] at hl
    split_ifs at hl with hp
    rw [hall ⟨name, x⟩ (AList.mem_lookup_iff.mp hl) (by simpa using hp)] at hh
    cases hh
  have hF : Fetch env gitURL haves =
      ⟨some ⟨dropPulls M, [], [], 0⟩, none,
        [⟨lit "GET", gitURL ++ lit "/info/refs?service=git-upload-pack", []⟩]⟩ := by
    unfold Fetch
    simp [h1, h2, h3, hM, hcw, sortStrings]
  rw [hF]
  refine ⟨_, rfl, rfl, fun name => dropPulls_lookup M name, rfl, rfl, rfl, rfl, ?_⟩
  intro q hq
  simp only [List.mem_singleton] at hq
  subst hq
  show lit "GET" ≠ lit "POST"
  decide

/-- Witness for C8: two references at `oidA`, which the have-set holds. -/
theorem C8_all_haves_no_post_witness :
    ∃ res, (Fetch (envOf advTwoHeads) urlAlice havesA).res = some res ∧
      (Fetch (envOf advTwoHeads) urlAlice havesA).err = none ∧
      (∀ name, res.Refs.lookup name =
        if HasPrefix name (lit "refs/pull/") then none else advTwoHeads.lookup name) ∧
      res.Wants = [] ∧ res.PackRef = [] ∧ res.BytesFetched = 0 ∧
      (Fetch (envOf advTwoHeads) urlAlice havesA).requests =
        [⟨lit "GET", urlAlice ++ lit "/info/refs?service=git-upload-pack", []⟩] ∧
      ∀ q ∈ (Fetch (envOf advTwoHeads) urlAlice havesA).requests, q.method ≠ lit "POST" :=
  C8_all_haves_no_post (envOf advTwoHeads) urlAlice havesA advTwoHeads rfl rfl rfl rfl
    (by decide)

/-! ## The request body -/

theorem isOid_length (s : Str) (h : isOid s = true) : s.length = 40 := by
  unfold isOid at h
  simp only [Bool.and_eq_true, beq_iff_eq] at h
  exact h.1

theorem specFrame_done : specFrame (lit "done\n") = lit "0009done\n" := by decide

theorem goFrame_want (w : Str) (h : w.length = 40) :
    fmt04x ((lit "want " ++ w ++ lit "\n").length + 4) ++ (lit "want " ++ w ++ lit "\n") =
      specFrame (lit "want " ++ w ++ lit "\n") := by
  have hl : (lit "want " ++ w ++ lit "\n").length = 46 := by
    simp only [List.length_append, h]; rfl
  unfold specFrame
  rw [hl]
  rfl

theorem goFrame_want_caps (w : Str) (h : w.length = 40) :
    fmt04x ((lit "want " ++ w ++ lit " ofs-delta side-band-64k thin-pack" ++ lit "\n").length
        + 4) ++ (lit "want " ++ w ++ lit " ofs-delta side-band-64k thin-pack" ++ lit "\n") =
      specFrame (lit "want " ++ w ++ lit " ofs-delta side-band-64k thin-pack" ++ lit "\n") := by
  have hl : (lit "want " ++ w ++ lit " ofs-delta side-band-64k thin-pack" ++
      lit "\n").length = 80 := by
    simp only [List.length_append, h]; rfl
  unfold specFrame
  rw [hl]
  rfl

theorem goFrame_have (w : Str) (h : w.length = 40) :
    fmt04x ((lit "have " ++ w ++ lit "\n").length + 4) ++ (lit "have " ++ w ++ lit "\n") =
      specFrame (lit "have " ++ w ++ lit "\n") := by
  have hl : (lit "have " ++ w ++ lit "\n").length = 46 := by
    simp only [List.length_append, h]; rfl
  unfold specFrame
  rw [hl]
  rfl

theorem ne_nil_of_length (w : Str) (h : w.length = 40) : w ≠ [] := by
  rintro rfl
  simp at h

/-- The want loop, once a first want has been written. -/
theorem foldl_wantStep (ws : List Str) :
    ∀ (body last : Str), last ≠ [] → (∀ w ∈ ws, w.length = 40) →
      (ws.foldl wantStep (body, last)).1 =
        body ++ catStrs ((distinctFrom last ws).map
          (fun w => specFrame (lit "want " ++ w ++ lit "\n"))) := by
  induction ws with
  | nil => intro body last _ _; simp [distinctFrom, catStrs]
  | cons w ws ih =>
    intro body last hlast hlen
    have hw : w.length = 40 := hlen w (List.mem_cons_self _ _)
    have hws : ∀ x ∈ ws, x.length = 40 := fun x hx => hlen x (List.mem_cons_of_mem _ hx)
    rw [List.foldl_cons]
    by_cases heq : last = w
    · have hstep : wantStep (body, last) w = (body, w) := by
        simp [wantStep, heq]
      rw [hstep, ih body w (ne_nil_of_length w hw) hws]
      simp [distinctFrom, heq]
    · have hstep : wantStep (body, last) w =
          (body ++ specFrame (lit "want " ++ w ++ lit "\n"), w) := by
        simp only [wantStep, heq, hlast, if_false]
        rw [goFrame_want w hw]
      rw [hstep, ih _ w (ne_nil_of_length w hw) hws]
      simp [distinctFrom, heq, catStrs, List.append_assoc]

theorem foldl_haveStep (hs : List Str) :
    ∀ (body : Str), (∀ h ∈ hs, h.length = 40) →
      hs.foldl haveStep body =
        body ++ catStrs (hs.map (fun h => specFrame (lit "have " ++ h ++ lit "\n"))) := by
  induction hs with
  | nil => intro body _; simp [catStrs]
  | cons h hs ih =>
    intro body hlen
    have hh : h.length = 40 := hlen h (List.mem_cons_self _ _)
    have hhs : ∀ x ∈ hs, x.length = 40 := fun x hx => hlen x (List.mem_cons_of_mem _ hx)
    have hstep : haveStep body h = body ++ specFrame (lit "have " ++ h ++ lit "\n") := by
      simp only [haveStep]
      rw [goFrame_have h hh]
    rw [List.foldl_cons, hstep, ih _ hhs]
    simp only [List.map_cons, catStrs, List.append_assoc]

/-- The body written by lines 67-86 for a non-empty list of wants of 40 bytes each. -/
theorem requestBody_eq_spec (w : Str) (ws : List Str) (haves : GoMap Unit)
    (hw : ∀ x ∈ w :: ws, x.length = 40) (hh : ∀ x ∈ haves.keys, x.length = 40) :
    requestBody (w :: ws) haves = specBody (w :: distinctFrom w ws) haves.keys := by
  have hw0 : w.length = 40 := hw w (List.mem_cons_self _ _)
  have hws : ∀ x ∈ ws, x.length = 40 := fun x hx => hw x (List.mem_cons_of_mem _ hx)
  have hne : ¬ (([] : Str) = w) := fun h => ne_nil_of_length w hw0 h.symm
  have hstep : wantStep (([] : Str), ([] : Str)) w =
      (specFrame (lit "want " ++ w ++ lit " ofs-delta side-band-64k thin-pack" ++ lit "\n"),
        w) := by
    simp only [wantStep, hne, if_false, if_true, List.nil_append]
    rw [goFrame_want_caps w hw0]
  unfold requestBody specBody
  simp only [List.foldl_cons, hstep]
  rw [foldl_wantStep ws _ w (ne_nil_of_length w hw0) hws, foldl_haveStep _ _ hh]
  simp [specWantFrames, List.append_assoc]

/-- In an ascending list the elements that differ from their predecessor form a strictly
ascending list with the same members. -/
theorem distinctFrom_sorted (ws : List Str) :
    ∀ (last : Str), (last :: ws).Sorted (fun a b => strLe a b = true) →
      (last :: distinctFrom last ws).Pairwise (fun a b => strLess a b = true) ∧
        ∀ x, x ∈ last :: distinctFrom last ws ↔ x ∈ last :: ws := by
  induction ws with
  | nil => intro last _; simp [distinctFrom]
  | cons w ws ih =>
    intro last hs
    have hs' : (w :: ws).Sorted (fun a b => strLe a b = true) := hs.of_cons
    have hlw : strLe last w = true := List.rel_of_sorted_cons hs w (List.mem_cons_self _ _)
    obtain ⟨ihp, ihm⟩ := ih w hs'
    by_cases heq : last = w
    · subst heq
      simp only [distinctFrom, if_true]
      refine ⟨ihp, fun x => ?_⟩
      rw [ihm x]
      simp
    · simp only [distinctFrom, heq, if_false]
      have hlt : strLess last w = true := (strLess_iff_le_ne last w).mpr ⟨hlw, heq⟩
      refine ⟨?_, fun x => ?_⟩
      · rw [List.pairwise_cons]
        refine ⟨?_, ihp⟩
        intro y hy
        rcases List.mem_cons.mp hy with rfl | hy'
        · exact hlt
        · have := List.rel_of_pairwise_cons ihp hy'
          exact strLess_trans last w y hlt this
      · rw [List.mem_cons, ihm x]
        simp only [List.mem_cons]

theorem distinctFrom_const (x : Str) (ws : List Str) (h : ∀ y ∈ ws, y = x) :
    distinctFrom x ws = [] := by
  induction ws with
  | nil => rfl
  | cons w ws ih =>
    have hw : w = x := h w (List.mem_cons_self _ _)
    subst hw
    simp only [distinctFrom, if_true]
    exact ih (fun y hy => h y (List.mem_cons_of_mem _ hy))

/-- When the advertisement is fetched and parsed and some want is collected, `git.Fetch`
hands the client the `GET` and then the `POST` whose body is `requestBody`. -/
theorem Fetch_requests (env : HttpEnv) (gitURL : Str) (haves : GoMap Unit) (M : GoMap Str)
    (h1 : env.newGetErr = none) (h2 : env.getErr = none) (h3 : env.getStatus = 200)
    (hM : env.parsed = Except.ok M) (h5 : env.newPostErr = none)
    (hw : collectWants (dropPulls M) haves ≠ []) :
    (Fetch env gitURL haves).requests =
      [⟨lit "GET", gitURL ++ lit "/info/refs?service=git-upload-pack", []⟩,
        ⟨lit "POST", gitURL ++ lit "/git-upload-pack",
          requestBody (sortStrings (collectWants (dropPulls M) haves)) haves⟩] := by
  have hlen : ¬ (sortStrings (collectWants (dropPulls M) haves)).length = 0 := by
    rw [(sortStrings_perm _).length_eq]
    simpa [List.length_eq_zero] using hw
  unfold Fetch
  simp only [h1, h2, h3, hM, h5, hlen, ne_eq, not_true_eq_false, if_false]
  cases h6 : (env.post (requestBody (sortStrings (collectWants (dropPulls M) haves))
      haves)).doErr with
  | some e => rfl
  | none =>
    simp only []
    split_ifs <;> rfl

/-- C5: when the advertisement is fetched and parsed to `M`, all object ids of `M` and of
the have-set are 40 hexadecimal digits, and some retained reference has a value outside the
have-set, `git.Fetch` posts to `/git-upload-pack` the body that the specification describes:
with `ds` the strictly ascending list of the distinct wanted object ids, one frame
`want <oid>\n` per element of `ds`, the first with ` ofs-delta side-band-64k thin-pack`
before the newline, then `0000`, then one frame `have <oid>\n` per element of the have-set,
then `0009done\n`, each frame being its payload after four lower-case hexadecimal digits
that give the payload length plus 4. -/
theorem C5_post_body (env : HttpEnv) (gitURL : Str) (haves : GoMap Unit) (M : GoMap Str)
    (h1 : env.newGetErr = none) (h2 : env.getErr = none) (h3 : env.getStatus = 200)
    (hM : env.parsed = Except.ok M) (h5 : env.newPostErr = none)
    (hoidM : ∀ e ∈ M.entries, isOid e.2 = true)
    (hoidH : ∀ x ∈ haves.keys, isOid x = true)
    (hne : ∃ e ∈ M.entries, HasPrefix e.1 (lit "refs/pull/") = false ∧ haves.has e.2 = false) :
    ∃ ds : List Str, ds.Pairwise (fun a b => strLess a b = true) ∧
      (∀ x, x ∈ ds ↔
        ∃ e ∈ M.entries, HasPrefix e.1 (lit "refs/pull/") = false ∧ e.2 = x ∧
          haves.has x = false) ∧
      (Fetch env gitURL haves).requests =
        [⟨lit "GET", gitURL ++ lit "/info/refs?service=git-upload-pack", []⟩,
          ⟨lit "POST", gitURL ++ lit "/git-upload-pack", specBody ds haves.keys⟩] := by
  have hmem : ∀ x, x ∈ sortStrings (collectWants (dropPulls M) haves) ↔
      ∃ e ∈ M.entries, HasPrefix e.1 (lit "refs/pull/") = false ∧ e.2 = x ∧
        haves.has x = false := by
    intro x
    rw [(sortStrings_perm _).mem_iff, mem_collectWants]
    constructor
    · rintro ⟨name, hl, hh⟩
      rw [dropPulls_lookup] at hl
      split_ifs at hl with hp
      exact ⟨⟨name, x⟩, AList.mem_lookup_iff.mp hl, by simpa using hp, rfl, hh⟩
    · rintro ⟨e, he, hp, rfl, hh⟩
      refine ⟨e.1, ?_, hh⟩
      rw [dropPulls_lookup]
      simp only [hp, Bool.false_eq_true, if_false]
      exact AList.mem_lookup_iff.mpr he
  have hcw : collectWants (dropPulls M) haves ≠ [] := by
    obtain ⟨e, he, hp, hh⟩ := hne
    have : e.2 ∈ sortStrings (collectWants (dropPulls M) haves) :=
      (hmem e.2).mpr ⟨e, he, hp, rfl, hh⟩
    rw [(sortStrings_perm _).mem_iff] at this
    exact List.ne_nil_of_mem this
  have hreq := Fetch_requests env gitURL haves M h1 h2 h3 hM h5 hcw
  have hsorted := sortStrings_sorted (collectWants (dropPulls M) haves)
  cases hws : sortStrings (collectWants (dropPulls M) haves) with
  | nil =>
    exfalso
    apply hcw
    have := (sortStrings_perm (collectWants (dropPulls M) haves)).length_eq
    rw [hws] at this
    exact List.length_eq_zero.mp this.symm
  | cons w ws =>
    rw [hws] at hreq hsorted hmem
    have hlen : ∀ x ∈ w :: ws, x.length = 40 := by
      intro x hx
      obtain ⟨e, he, -, rfl, -⟩ := (hmem x).mp hx
      exact isOid_length _ (hoidM e he)
    have hlenH : ∀ x ∈ haves.keys, x.length = 40 := fun x hx => isOid_length _ (hoidH x hx)
    obtain ⟨hp, hm⟩ := distinctFrom_sorted ws w hsorted
    refine ⟨w :: distinctFrom w ws, hp, fun x => (hm x).trans (hmem x), ?_⟩
    rw [hreq, requestBody_eq_spec w ws haves hlen hlenH]

/-- Witness for C5: two branches at different objects, one pull reference, and a
have-set of one object. -/
theorem C5_post_body_witness :
    ∃ ds : List Str, ds.Pairwise (fun a b => strLess a b = true) ∧
      (∀ x, x ∈ ds ↔
        ∃ e ∈ advTwoBranches.entries, HasPrefix e.1 (lit "refs/pull/") = false ∧ e.2 = x ∧
          havesC.has x = false) ∧
      (Fetch (envOf advTwoBranches) urlAlice havesC).requests =
        [⟨lit "GET", urlAlice ++ lit "/info/refs?service=git-upload-pack", []⟩,
          ⟨lit "POST", urlAlice ++ lit "/git-upload-pack", specBody ds havesC.keys⟩] :=
  C5_post_body (envOf advTwoBranches) urlAlice havesC advTwoBranches rfl rfl rfl rfl rfl
    (by decide) (by decide) (by decide)

/-- C6, as stated, fails: in the fresh-clone scenario (one branch at `oidA`, one pull
reference, no haves) the body posted by `git.Fetch` does not begin with
`0032want <oid> ofs-delta side-band-64k thin-pack\n`; its length prefix is `0054`. -/
theorem C6_counterexample :
    (Fetch (envOf advFresh) urlAlice ∅).requests =
        [⟨lit "GET", urlAlice ++ lit "/info/refs?service=git-upload-pack", []⟩,
          ⟨lit "POST", urlAlice ++ lit "/git-upload-pack", bodyFresh⟩] ∧
      HasPrefix bodyFresh
        (lit "0032want " ++ oidA ++ lit " ofs-delta side-band-64k thin-pack\n") = false := by
  refine ⟨by decide, by decide⟩

/-- C6, amended: for every object id `X` of 40 bytes, when the advertisement is fetched and
parsed, its only reference outside `refs/pull/` has value `X`, and the have-set is empty, the
body posted by `git.Fetch` is `0054want X ofs-delta side-band-64k thin-pack\n`, `0000`,
`0009done\n`; in particular it begins with
`0054want X ofs-delta side-band-64k thin-pack\n` (84 = 0x54 is the length of that first
line plus 4). -/
theorem C6_fresh_clone_body (env : HttpEnv) (gitURL : Str) (haves : GoMap Unit)
    (M : GoMap Str) (X : Str)
    (h1 : env.newGetErr = none) (h2 : env.getErr = none) (h3 : env.getStatus = 200)
    (hM : env.parsed = Except.ok M) (h5 : env.newPostErr = none)
    (hX : X.length = 40) (hempty : haves.keys = [])
    (honly : ∃ name, HasPrefix name (lit "refs/pull/") = false ∧ M.lookup name = some X ∧
      ∀ e ∈ M.entries, HasPrefix e.1 (lit "refs/pull/") = false → e.1 = name) :
    (Fetch env gitURL haves).requests =
        [⟨lit "GET", gitURL ++ lit "/info/refs?service=git-upload-pack", []⟩,
          ⟨lit "POST", gitURL ++ lit "/git-upload-pack",
            lit "0054want " ++ X ++ lit " ofs-delta side-band-64k thin-pack\n" ++
              lit "0000" ++ lit "0009done\n"⟩] ∧
      HasPrefix
        (lit "0054want " ++ X ++ lit " ofs-delta side-band-64k thin-pack\n" ++
          lit "0000" ++ lit "0009done\n")
        (lit "0054want " ++ X ++ lit " ofs-delta side-band-64k thin-pack\n") = true := by
  obtain ⟨name, hp, hl, huniq⟩ := honly
  have hhas : ∀ x, haves.has x = false := by
    intro x
    have : x ∉ haves.keys := by rw [hempty]; simp
    have hnone : haves.lookup x = none := AList.lookup_eq_none.mpr (AList.mem_keys.not.mpr this)
    simp [GoMap.has, hnone]
  have hmem : ∀ x, x ∈ sortStrings (collectWants (dropPulls M) haves) ↔ x = X := by
    intro x
    rw [(sortStrings_perm _).mem_iff, mem_collectWants]
    constructor
    · rintro ⟨k, hk, -⟩
      rw [dropPulls_lookup] at hk
      split_ifs at hk with hpk
      have hmemk := AList.mem_lookup_iff.mp hk
      have hkn : k = name := huniq ⟨k, x⟩ hmemk (by simpa using hpk)
      subst hkn
      rw [hl] at hk
      exact (Option.some.inj hk).symm
    · rintro rfl
      exact ⟨name, by rw [dropPulls_lookup]; simp [hp, hl], hhas _⟩
  have hcw : collectWants (dropPulls M) haves ≠ [] := by
    have : X ∈ sortStrings (collectWants (dropPulls M) haves) := (hmem X).mpr rfl
    rw [(sortStrings_perm _).mem_iff] at this
    exact List.ne_nil_of_mem this
  have hreq := Fetch_requests env gitURL haves M h1 h2 h3 hM h5 hcw
  constructor
  · cases hws : sortStrings (collectWants (dropPulls M) haves) with
    | nil =>
      exfalso
      have := (hmem X).mpr rfl
      rw [hws] at this
      cases this
    | cons w ws =>
      rw [hws] at hreq hmem
      have hwX : w = X := (hmem w).mp (List.mem_cons_self _ _)
      subst hwX
      have hall : ∀ y ∈ ws, y = w := fun y hy => (hmem y).mp (List.mem_cons_of_mem _ hy)
      have hlen : ∀ x ∈ w :: ws, x.length = 40 := by
        intro x hx
        rw [(hmem x).mp hx]; exact hX
      have hlenH : ∀ x ∈ haves.keys, x.length = 40 := by
        intro x hx; rw [hempty] at hx; cases hx
      rw [hreq, requestBody_eq_spec w ws haves hlen hlenH, distinctFrom_const w ws hall,
        hempty]
      have hl80 : (lit "want " ++ w ++ lit " ofs-delta side-band-64k thin-pack" ++
          lit "\n").length = 80 := by
        simp only [List.length_append, hX]; rfl
      have hframe : specFrame
          (lit "want " ++ w ++ lit " ofs-delta side-band-64k thin-pack" ++ lit "\n") =
          lit "0054want " ++ w ++ lit " ofs-delta side-band-64k thin-pack\n" := by
        unfold specFrame
        rw [hl80]
        have e1 : lit "0054want " = lit "0054" ++ lit "want " := by decide
        have e2 : lit " ofs-delta side-band-64k thin-pack\n" =
            lit " ofs-delta side-band-64k thin-pack" ++ lit "\n" := by decide
        rw [e1, e2]
        simp only [List.append_assoc]
        rfl
      simp only [specBody, specWantFrames, hframe, List.map_nil, catStrs, List.append_nil]
  · unfold HasPrefix
    rw [List.isPrefixOf_iff_prefix]
    exact ⟨lit "0000" ++ lit "0009done\n", by simp only [List.append_assoc]⟩

/-- Witness for the amended C6: the fresh-clone scenario of the specification. -/
theorem C6_fresh_clone_body_witness :
    (Fetch (envOf advFresh) urlAlice ∅).requests =
        [⟨lit "GET", urlAlice ++ lit "/info/refs?service=git-upload-pack", []⟩,
          ⟨lit "POST", urlAlice ++ lit "/git-upload-pack",
            lit "0054want " ++ oidA ++ lit " ofs-delta side-band-64k thin-pack\n" ++
              lit "0000" ++ lit "0009done\n"⟩] ∧
      HasPrefix
        (lit "0054want " ++ oidA ++ lit " ofs-delta side-band-64k thin-pack\n" ++
          lit "0000" ++ lit "0009done\n")
        (lit "0054want " ++ oidA ++ lit " ofs-delta side-band-64k thin-pack\n") = true :=
  C6_fresh_clone_body (envOf advFresh) urlAlice ∅ advFresh oidA rfl rfl rfl rfl rfl
    (by decide) rfl ⟨lit "refs/heads/main", by decide, by decide, by decide⟩

/-! ## The index -/

theorem selectQ_foldl (l : List FetchRow) :
    ∀ (best : Option FetchRow),
      (∀ b, best = some b → ∃ r', l.foldl (fun best r =>
          match best with
          | none => some r
          | some b => if b.Timestamp < r.Timestamp then some r else some b) best = some r' ∧
        (r' = b ∨ r' ∈ l) ∧ b.Timestamp ≤ r'.Timestamp ∧
        ∀ r ∈ l, r.Timestamp ≤ r'.Timestamp) ∧
      (best = none → l ≠ [] → ∃ r', l.foldl (fun best r =>
          match best with
          | none => some r
          | some b => if b.Timestamp < r.Timestamp then some r else some b) best = some r' ∧
        r' ∈ l ∧ ∀ r ∈ l, r.Timestamp ≤ r'.Timestamp) := by
  induction l with
  | nil =>
    intro best
    refine ⟨fun b hb => ⟨b, by simp [hb], Or.inl rfl, le_refl _, by simp⟩, fun _ h => ?_⟩
    exact absurd rfl h
  | cons x l ih =>
    intro best
    constructor
    · intro b hb
      subst hb
      rw [List.foldl_cons]
      by_cases hlt : b.Timestamp < x.Timestamp
      · obtain ⟨r', hr', hmem, hle, hall⟩ := (ih (some x)).1 x rfl
        refine ⟨r', by simpa [hlt] using hr', ?_, by omega, ?_⟩
        · rcases hmem with h | h
          · exact Or.inr (h ▸ List.mem_cons_self _ _)
          · exact Or.inr (List.mem_cons_of_mem _ h)
        · intro r hr
          rcases List.mem_cons.mp hr with rfl | h
          · exact hle
          · exact hall r h
      · obtain ⟨r', hr', hmem, hle, hall⟩ := (ih (some b)).1 b rfl
        refine ⟨r', by simpa [hlt] using hr', ?_, hle, ?_⟩
        · rcases hmem with h | h
          · exact Or.inl h
          · exact Or.inr (List.mem_cons_of_mem _ h)
        · intro r hr
          rcases List.mem_cons.mp hr with rfl | h
          · omega
          · exact hall r h
    · intro hb _
      subst hb
      rw [List.foldl_cons]
      obtain ⟨r', hr', hmem, hle, hall⟩ := (ih (some x)).1 x rfl
      refine ⟨r', hr', ?_, ?_⟩
      · rcases hmem with h | h
        · exact h ▸ List.mem_cons_self _ _
        · exact List.mem_cons_of_mem _ h
      · intro r hr
        rcases List.mem_cons.mp hr with rfl | h
        · exact hle
        · exact hall r h

/-- The query `selectQ` finds nothing exactly when no row has the name. -/
theorem selectQ_eq_none (i : Index) (name : Str) :
    selectQ i name = none ↔ ∀ r ∈ i.Fetches, r.Name ≠ name := by
  unfold selectQ
  constructor
  · intro h r hr hname
    have hne : i.Fetches.filter (fun r => r.Name = name) ≠ [] :=
      List.ne_nil_of_mem (List.mem_filter.mpr ⟨hr, by simpa using hname⟩)
    obtain ⟨r', hr', -⟩ := (selectQ_foldl _ none).2 rfl hne
    rw [h] at hr'
    cases hr'
  · intro h
    have : i.Fetches.filter (fun r => r.Name = name) = [] := by
      rw [List.filter_eq_nil_iff]
      intro r hr
      simpa using h r hr
    rw [this]
    rfl

/-- The row that `selectQ` returns is a most recent record of the name. -/
theorem selectQ_eq_some (i : Index) (name : Str) (row : FetchRow)
    (h : selectQ i name = some row) : IsLatest i name row := by
  unfold selectQ at h
  have hne : i.Fetches.filter (fun r => r.Name = name) ≠ [] := by
    intro hnil
    rw [hnil] at h
    cases h
  obtain ⟨r', hr', hmem, hall⟩ := (selectQ_foldl _ none).2 rfl hne
  rw [h] at hr'
  cases hr'
  rw [List.mem_filter] at hmem
  refine ⟨hmem.1, by simpa using hmem.2, fun r hr hname => ?_⟩
  exact hall r (List.mem_filter.mpr ⟨hr, by simpa using hname⟩)

theorem mem_keys_foldl_insert (vs : List Str) :
    ∀ (h : GoMap Unit) (x : Str),
      x ∈ (vs.foldl (fun h ref => h.insert ref ()) h).keys ↔ x ∈ h.keys ∨ x ∈ vs := by
  induction vs with
  | nil => intro h x; simp
  | cons v vs ih =>
    intro h x
    rw [List.foldl_cons, ih, ← AList.mem_keys, AList.mem_insert, AList.mem_keys,
      List.mem_cons]
    tauto

theorem mem_keys_addValues (h : GoMap Unit) (r : GoMap Str) (x : Str) :
    x ∈ (addValues h r).keys ↔ x ∈ h.keys ∨ x ∈ r.values :=
  mem_keys_foldl_insert r.values h x

theorem mem_values_iff (m : GoMap Str) (x : Str) :
    x ∈ m.values ↔ ∃ k, m.lookup k = some x := by
  unfold GoMap.values
  rw [List.mem_map]
  constructor
  · rintro ⟨e, he, rfl⟩
    exact ⟨e.1, AList.mem_lookup_iff.mpr he⟩
  · rintro ⟨k, hk⟩
    exact ⟨⟨k, x⟩, AList.mem_lookup_iff.mp hk, rfl⟩

/-- Decoding the parent's references into the map that already holds the record's own
references adds no value that is in neither, and loses no value of the parent. -/
theorem mem_values_union (p r : GoMap Str) (x : Str) :
    (x ∈ (p ∪ r).values → x ∈ p.values ∨ x ∈ r.values) ∧
      (x ∈ p.values → x ∈ (p ∪ r).values) := by
  simp only [mem_values_iff]
  constructor
  · rintro ⟨k, hk⟩
    have := AList.mem_lookup_union.mp (Option.mem_def.mpr hk)
    rcases this with h | ⟨-, h⟩
    · exact Or.inl ⟨k, h⟩
    · exact Or.inr ⟨k, h⟩
  · rintro ⟨k, hk⟩
    exact ⟨k, AList.mem_lookup_union.mpr (Or.inl hk)⟩

theorem insertDeps_ok (fault : Nat → Option Error) (packID : Nat) (deps : List Nat) :
    ∀ (k : Nat) (rows rows' : List PackDep),
      insertDeps fault packID deps k rows = (rows', none) →
        rows' = rows ++ deps.map (fun d => ⟨packID, d⟩) := by
  induction deps with
  | nil =>
    intro k rows rows' h
    simp only [insertDeps, Prod.mk.injEq, and_true] at h
    simp [h]
  | cons d deps ih =>
    intro k rows rows' h
    unfold insertDeps at h
    cases hf : fault k with
    | some e => simp [hf] at h
    | none =>
      simp only [hf] at h
      rw [ih (k + 1) _ rows' h]
      simp

/-- What a call of `AddFetch` that returns `nil` does to the database: one row is appended
to `Fetches` under the next `PackID`, and one row per dependency to `PackDeps`. -/
theorem AddFetch_ok (i i' : Index) (faults : AddFetchFaults) (name parent : Str)
    (timestamp : Int) (refs : GoMap Str) (packRef : Str) (packDeps : List Nat)
    (h : AddFetch i faults name parent timestamp refs packRef packDeps = (i', none)) :
    i'.Fetches =
        i.Fetches ++ [⟨name, parent, timestamp, jsonStored refs, i.autoInc, packRef⟩] ∧
      i'.PackDeps = i.PackDeps ++ packDeps.map (fun d => ⟨i.autoInc, d⟩) ∧
      i'.autoInc = i.autoInc + 1 := by
  unfold AddFetch at h
  cases h1 : faults.insertFetch with
  | some e => simp [h1] at h
  | none =>
  cases h2 : faults.lastInsertId with
  | some e => simp [h1, h2] at h
  | none =>
  simp only [h1, h2, Prod.mk.injEq] at h
  obtain ⟨hi, herr⟩ := h
  have hrows := insertDeps_ok faults.insertDep i.autoInc packDeps 0 i.PackDeps _
    (Prod.ext rfl herr)
  subst hi
  exact ⟨rfl, hrows, rfl⟩

/-! ## The JSON encoding of a reference snapshot -/

theorem jsonString_ascii (s : Str) (h : ∀ b ∈ s, b < 0x80) : jsonString s = s := by
  unfold jsonString
  induction s with
  | nil => rfl
  | cons b rest ih =>
    have hb : b < 0x80 := h b (List.mem_cons_self _ _)
    have hr : ∀ x ∈ rest, x < 0x80 := fun x hx => h x (List.mem_cons_of_mem _ hx)
    simp only [jsonCoerce, hb, if_true, ih hr]

/-- An ASCII prefix is neither created nor destroyed by the JSON encoding. -/
theorem hasPrefix_jsonString (p : Str) (hp : ∀ c ∈ p, c < 0x80) :
    ∀ s : Str, HasPrefix (jsonString s) p = HasPrefix s p := by
  unfold jsonString HasPrefix
  induction p with
  | nil => intro s; simp [List.isPrefixOf]
  | cons c p ih =>
    intro s
    have hc : c < 0x80 := hp c (List.mem_cons_self _ _)
    have hp' : ∀ x ∈ p, x < 0x80 := fun x hx => hp x (List.mem_cons_of_mem _ hx)
    cases s with
    | nil => simp [jsonCoerce, List.isPrefixOf]
    | cons b rest =>
      by_cases hb : b < 0x80
      · simp only [jsonCoerce, hb, if_true, List.isPrefixOf, ih hp' rest]
      · have hcb : (c == b) = false := by
          rw [beq_eq_false_iff_ne]
          rintro rfl
          exact hb hc
        have hce : (c == (0xEF : UInt8)) = false := by
          rw [beq_eq_false_iff_ne]
          rintro rfl
          revert hc
          decide
        simp only [jsonCoerce, hb, if_false]
        cases utf8SeqLen b rest with
        | zero => simp [List.isPrefixOf, hcb, hce]
        | succ n => simp [List.isPrefixOf, hcb]

theorem mem_keys_foldl_insert_str (l : List (Σ _ : Str, Str)) :
    ∀ (m : GoMap Str) (k : Str),
      k ∈ (l.foldl (fun m e => m.insert e.1 e.2) m).keys ↔ k ∈ m.keys ∨ k ∈ l.keys := by
  induction l with
  | nil => intro m k; simp [List.keys]
  | cons e l ih =>
    intro m k
    rw [List.foldl_cons, ih, ← AList.mem_keys, AList.mem_insert, AList.mem_keys,
      List.keys_cons, List.mem_cons]
    tauto

theorem lookup_foldl_insert (l : List (Σ _ : Str, Str)) :
    ∀ (m : GoMap Str) (k v : Str), l.NodupKeys →
      ((l.foldl (fun m e => m.insert e.1 e.2) m).lookup k = some v ↔
        (⟨k, v⟩ : Σ _ : Str, Str) ∈ l ∨ (k ∉ l.keys ∧ m.lookup k = some v)) := by
  induction l with
  | nil => intro m k v _; simp [List.keys]
  | cons e l ih =>
    intro m k v nd
    rw [List.nodupKeys_cons] at nd
    rw [List.foldl_cons, ih _ k v nd.2, List.keys_cons, List.mem_cons, List.mem_cons]
    by_cases hk : k = e.1
    · subst hk
      rw [AList.lookup_insert]
      constructor
      · rintro (h | ⟨_, h⟩)
        · exact absurd (List.mem_keys_of_mem h) nd.1
        · left; left
          cases e with
          | mk a b => simp only [Option.some.injEq] at h; subst h; rfl
      · rintro (h | ⟨h, _⟩)
        · rcases h with h | h
          · right
            refine ⟨nd.1, ?_⟩
            rw [← h]
          · exact absurd (List.mem_keys_of_mem h) nd.1
        · exact absurd (Or.inl rfl) h
    · rw [AList.lookup_insert_ne hk]
      constructor
      · rintro (h | ⟨h1, h2⟩)
        · exact Or.inl (Or.inr h)
        · exact Or.inr ⟨fun h => h.elim hk h1, h2⟩
      · rintro (h | ⟨h1, h2⟩)
        · rcases h with h | h
          · exact absurd (congrArg Sigma.fst h) hk
          · exact Or.inl h
        · exact Or.inr ⟨fun h => h1 (Or.inr h), h2⟩

/-- Every name of the stored snapshot is the JSON form of a name of the snapshot. -/
theorem jsonStored_keys (R : GoMap Str) (k : Str) (h : k ∈ (jsonStored R).keys) :
    ∃ e ∈ R.entries, k = jsonString e.1 := by
  unfold jsonStored at h
  rw [mem_keys_foldl_insert_str] at h
  rcases h with h | h
  · simp at h
  · rw [List.keys, List.mem_map] at h
    obtain ⟨x, hx, rfl⟩ := h
    obtain ⟨e, he, rfl⟩ := List.mem_map.mp hx
    exact ⟨e, (List.perm_insertionSort _ _).mem_iff.mp he, rfl⟩

/-- A snapshot whose names and object ids are valid UTF-8 is read back unchanged. -/
theorem jsonStored_lookup (R : GoMap Str)
    (hsafe : ∀ e ∈ R.entries, jsonSafe e.1 = true ∧ jsonSafe e.2 = true) (k : Str) :
    (jsonStored R).lookup k = R.lookup k := by
  have hperm := List.perm_insertionSort (fun a b : (Σ _ : Str, Str) => strLe a.1 b.1 = true)
    R.entries
  have hmap : (R.entries.insertionSort (fun a b => strLe a.1 b.1 = true)).map
      (fun e => (⟨jsonString e.1, jsonString e.2⟩ : Σ _ : Str, Str)) =
      R.entries.insertionSort (fun a b => strLe a.1 b.1 = true) := by
    conv_rhs => rw [← List.map_id (R.entries.insertionSort (fun a b => strLe a.1 b.1 = true))]
    apply List.map_congr_left
    intro e he
    obtain ⟨h1, h2⟩ := hsafe e (hperm.mem_iff.mp he)
    simp only [jsonSafe, beq_iff_eq] at h1 h2
    cases e with
    | mk a b =>
      simp only at h1 h2
      simp [h1, h2]
  have hnd : (R.entries.insertionSort (fun a b => strLe a.1 b.1 = true)).NodupKeys :=
    (List.perm_nodupKeys hperm).mpr R.nodupKeys
  apply Option.ext
  intro v
  unfold jsonStored
  rw [hmap, Option.mem_def, Option.mem_def, lookup_foldl_insert _ _ k v hnd]
  constructor
  · rintro (h | ⟨_, h⟩)
    · exact AList.mem_lookup_iff.mpr (hperm.mem_iff.mp h)
    · simp at h
  · intro h
    exact Or.inl (hperm.mem_iff.mpr (AList.mem_lookup_iff.mp h))

/-- No prior record is read exactly when no row has the name. -/
theorem priorRecords_eq_nil (i : Index) (name : Str) :
    priorRecords i name = [] ↔ ∀ r ∈ i.Fetches, r.Name ≠ name := by
  rw [← selectQ_eq_none]
  unfold priorRecords
  cases selectQ i name <;> simp

/-- The prior records are a most recent row of the name, followed by a most recent row of
that row's parent when the parent is non-empty and has a row, and nothing else. -/
theorem priorRecords_shape (i : Index) (name : Str) (row : FetchRow) (rest : List FetchRow)
    (h : priorRecords i name = row :: rest) :
    IsLatest i name row ∧
      (rest = [] ∨ ∃ prow, rest = [prow] ∧ row.Parent ≠ [] ∧ IsLatest i row.Parent prow) ∧
      (rest = [] ↔ row.Parent = [] ∨ ∀ r ∈ i.Fetches, r.Name ≠ row.Parent) := by
  unfold priorRecords at h
  cases hs : selectQ i name with
  | none => simp [hs] at h
  | some row0 =>
    simp only [hs, List.cons.injEq] at h
    obtain ⟨rfl, hrest⟩ := h
    have hlat := selectQ_eq_some i name row0 hs
    by_cases hpar : row0.Parent = []
    · simp only [hpar, if_true] at hrest
      subst hrest
      exact ⟨hlat, Or.inl rfl, iff_of_true rfl (Or.inl hpar)⟩
    · simp only [hpar, if_false] at hrest
      cases hs2 : selectQ i row0.Parent with
      | none =>
        rw [hs2] at hrest
        subst hrest
        exact ⟨hlat, Or.inl rfl, iff_of_true rfl (Or.inr ((selectQ_eq_none i _).mp hs2))⟩
      | some prow =>
        rw [hs2] at hrest
        subst hrest
        have hlat2 := selectQ_eq_some i row0.Parent prow hs2
        refine ⟨hlat, Or.inr ⟨prow, rfl, hpar, hlat2⟩, ?_⟩
        simp only [Option.toList_some, List.cons_ne_nil, false_iff, not_or, not_forall]
        exact ⟨hpar, prow, hlat2.1, by simpa using hlat2.2.1⟩

/-- The dependency list of `GetHaves` (no SQL failure): the pack ids of the prior records,
own record first. -/
theorem GetHaves_deps (i : Index) (name : Str) :
    (GetHaves i ⟨none, none⟩ name).deps = (priorRecords i name).map (fun P => P.PackID) := by
  unfold GetHaves priorRecords
  cases hs : selectQ i name with
  | none => rfl
  | some row =>
    by_cases hpar : row.Parent = []
    · simp [hpar]
    · cases hs2 : selectQ i row.Parent <;> simp [hpar, hs2]

/-! ## The worker -/

/-- What is known once `Fetcher.Fetch` has called `AddFetch`: both `GetHaves` and the fetch
driver returned a nil error, the copy into the bucket did not fail, the arguments of
`AddFetch` are the ones computed from them, the index afterwards is the one `AddFetch`
produced, and `Fetcher.Fetch` returns the (nil) error of the driver. -/
theorem Fetch_addFetchCall_inv (f : Fetcher) (env : WorkerEnv) (name parent : Str)
    (args : AddFetchArgs) (aerr : Option Error)
    (hcall : (Fetcher.Fetch f env name parent).addFetchCall = some (args, aerr)) :
    (GetHaves f.i env.getHavesFaults (lit "https://github.com/" ++ name ++ lit ".git")).err
        = none ∧
      (env.gitFetch (lit "https://github.com/" ++ name ++ lit ".git")
        (GetHaves f.i env.getHavesFaults
          (lit "https://github.com/" ++ name ++ lit ".git")).haves).err = none ∧
      args.name = lit "https://github.com/" ++ name ++ lit ".git" ∧
      args.parent =
        (if parent ≠ [] then lit "https://github.com/" ++ parent ++ lit ".git" else []) ∧
      args.timestamp = env.now ∧
      args.refs = (env.gitFetch (lit "https://github.com/" ++ name ++ lit ".git")
        (GetHaves f.i env.getHavesFaults
          (lit "https://github.com/" ++ name ++ lit ".git")).haves).refs ∧
      args.packRef =
        (match (env.gitFetch (lit "https://github.com/" ++ name ++ lit ".git")
            (GetHaves f.i env.getHavesFaults
              (lit "https://github.com/" ++ name ++ lit ".git")).haves).r with
          | some _ =>
            lit "https://github.com/" ++ name ++ lit ".git" ++ lit "|" ++ fmtInt env.unixNano
          | none =>
            lit "EMPTY|" ++ (lit "https://github.com/" ++ name ++ lit ".git" ++ lit "|" ++
              fmtInt env.unixNano)) ∧
      args.packDeps = (GetHaves f.i env.getHavesFaults
          (lit "https://github.com/" ++ name ++ lit ".git")).deps ∧
      AddFetch f.i env.addFetchFaults args.name args.parent args.timestamp args.refs
          args.packRef args.packDeps = ((Fetcher.Fetch f env name parent).f.i, aerr) ∧
      (Fetcher.Fetch f env name parent).f.bucket =
        (match (env.gitFetch (lit "https://github.com/" ++ name ++ lit ".git")
            (GetHaves f.i env.getHavesFaults
              (lit "https://github.com/" ++ name ++ lit ".git")).haves).r with
          | some pack =>
            if env.closeErr = none then (args.packRef, pack) :: f.bucket else f.bucket
          | none => f.bucket) ∧
      (Fetcher.Fetch f env name parent).err = none ∧
      (Fetcher.Fetch f env name parent).gitFetchCall =
        some (lit "https://github.com/" ++ name ++ lit ".git",
          (GetHaves f.i env.getHavesFaults
            (lit "https://github.com/" ++ name ++ lit ".git")).haves) := by
  simp only [Fetcher.Fetch] at hcall ⊢
  by_cases hh : (GetHaves f.i env.getHavesFaults
      (lit "https://github.com/" ++ name ++ lit ".git")).err = none
  swap
  · rw [if_pos hh] at hcall
    cases hcall
  by_cases hd : (env.gitFetch (lit "https://github.com/" ++ name ++ lit ".git")
      (GetHaves f.i env.getHavesFaults
        (lit "https://github.com/" ++ name ++ lit ".git")).haves).err = none
  swap
  · rw [if_neg (not_not.mpr hh), if_pos hd] at hcall
    cases hcall
  rw [if_neg (not_not.mpr hh), if_neg (not_not.mpr hd)] at hcall ⊢
  refine ⟨hh, hd, ?_⟩
  cases hr : (env.gitFetch (lit "https://github.com/" ++ name ++ lit ".git")
      (GetHaves f.i env.getHavesFaults
        (lit "https://github.com/" ++ name ++ lit ".git")).haves).r with
  | none =>
    simp only [hr, Option.some.injEq, Prod.mk.injEq] at hcall ⊢
    obtain ⟨rfl, rfl⟩ := hcall
    refine ⟨?_, ?_, ?_, ?_, ?_, ?_, ?_, ?_, ?_, ?_⟩ <;> first | rfl | trivial
  | some pack =>
    simp only [hr] at hcall ⊢
    cases hc : env.copyErr with
    | some e =>
      simp only [hc] at hcall
      cases hcall
    | none =>
      simp only [hc, Option.some.injEq, Prod.mk.injEq] at hcall ⊢
      obtain ⟨rfl, rfl⟩ := hcall
      refine ⟨?_, ?_, ?_, ?_, ?_, ?_, ?_, ?_, ?_, ?_⟩ <;> first | rfl | trivial

theorem GetHaves_of_err_none (i : Index) (faults : GetHavesFaults) (name : Str)
    (h : (GetHaves i faults name).err = none) :
    GetHaves i faults name = GetHaves i ⟨none, none⟩ name := by
  unfold GetHaves at h ⊢
  cases h1 : faults.first with
  | some e => simp [h1] at h
  | none =>
  cases hs : selectQ i name with
  | none => rfl
  | some row =>
  by_cases hpar : row.Parent = []
  · simp [hpar]
  cases h2 : faults.second with
  | some e => simp [h1, hs, hpar, h2] at h
  | none => rfl

/-- When `GetHaves` and the driver return a nil error and the copy into the bucket does not
fail, `Fetcher.Fetch` calls `AddFetch`. -/
theorem Fetch_addFetchCall_some (f : Fetcher) (env : WorkerEnv) (name parent : Str)
    (hh : (GetHaves f.i env.getHavesFaults
      (lit "https://github.com/" ++ name ++ lit ".git")).err = none)
    (hd : (env.gitFetch (lit "https://github.com/" ++ name ++ lit ".git")
      (GetHaves f.i env.getHavesFaults
        (lit "https://github.com/" ++ name ++ lit ".git")).haves).err = none)
    (hc : env.copyErr = none) :
    ∃ args aerr, (Fetcher.Fetch f env name parent).addFetchCall = some (args, aerr) := by
  simp only [Fetcher.Fetch]
  rw [if_neg (not_not.mpr hh), if_neg (not_not.mpr hd)]
  cases hr : (env.gitFetch (lit "https://github.com/" ++ name ++ lit ".git")
      (GetHaves f.i env.getHavesFaults
        (lit "https://github.com/" ++ name ++ lit ".git")).haves).r with
  | none => exact ⟨_, _, rfl⟩
  | some pack =>
    simp only [hc]
    exact ⟨_, _, rfl⟩

/-- Once `AddFetch` has been called, `Fetcher.Fetch` returns nil, whatever `AddFetch`
returned. -/
theorem Fetch_returns_nil_after_AddFetch (f : Fetcher) (env : WorkerEnv) (name parent : Str)
    (args : AddFetchArgs) (aerr : Option Error)
    (hcall : (Fetcher.Fetch f env name parent).addFetchCall = some (args, aerr)) :
    (Fetcher.Fetch f env name parent).err = none :=
  (Fetch_addFetchCall_inv f env name parent args aerr hcall).2.2.2.2.2.2.2.2.2.2.1

/-- `AddFetch` appends the new row to `Fetches` as soon as the first insert succeeds. -/
theorem AddFetch_fetches (i : Index) (faults : AddFetchFaults) (name parent : Str)
    (timestamp : Int) (refs : GoMap Str) (packRef : Str) (packDeps : List Nat)
    (h : faults.insertFetch = none) :
    (AddFetch i faults name parent timestamp refs packRef packDeps).1.Fetches =
      i.Fetches ++ [⟨name, parent, timestamp, jsonStored refs, i.autoInc, packRef⟩] := by
  unfold AddFetch
  simp only [h]
  cases faults.lastInsertId <;> rfl

theorem WF_ixEmpty : ixEmpty.WF :=
  ⟨by simp [ixEmpty], by simp [ixEmpty], by simp [ixEmpty]⟩

theorem insertDeps_ids (fault : Nat → Option Error) (packID : Nat) (deps : List Nat) :
    ∀ (k : Nat) (rows : List PackDep) (d : PackDep),
      d ∈ (insertDeps fault packID deps k rows).1 → d ∈ rows ∨ d.ID = packID := by
  induction deps with
  | nil => intro k rows d h; exact Or.inl h
  | cons x deps ih =>
    intro k rows d h
    unfold insertDeps at h
    cases hf : fault k with
    | some e => simp only [hf] at h; exact Or.inl h
    | none =>
      simp only [hf] at h
      rcases ih (k + 1) _ d h with h' | h'
      · rcases List.mem_append.mp h' with h'' | h''
        · exact Or.inl h''
        · simp only [List.mem_singleton] at h''
          subst h''
          exact Or.inr rfl
      · exact Or.inr h'

/-- `AddFetch` maintains the invariants of the database, whether it fails or not. -/
theorem AddFetch_WF (i : Index) (faults : AddFetchFaults) (name parent : Str)
    (timestamp : Int) (refs : GoMap Str) (packRef : Str) (packDeps : List Nat)
    (hwf : i.WF) : (AddFetch i faults name parent timestamp refs packRef packDeps).1.WF := by
  unfold AddFetch
  cases h1 : faults.insertFetch with
  | some e => exact hwf
  | none =>
  have hw1 : Index.WF
      { i with
        Fetches :=
          i.Fetches ++ [⟨name, parent, timestamp, jsonStored refs, i.autoInc, packRef⟩]
        autoInc := i.autoInc + 1 } := by
    refine ⟨?_, ?_, ?_⟩
    · intro r hr
      rcases List.mem_append.mp hr with h | h
      · exact Nat.lt_succ_of_lt (hwf.packid_lt r h)
      · simp only [List.mem_singleton] at h
        subst h
        exact Nat.lt_succ_self _
    · rw [List.pairwise_append]
      refine ⟨hwf.packid_unique, List.pairwise_singleton _ _, ?_⟩
      intro a ha b hb
      simp only [List.mem_singleton] at hb
      subst hb
      exact Nat.ne_of_lt (hwf.packid_lt a ha)
    · intro d hd
      exact Nat.lt_succ_of_lt (hwf.dep_lt d hd)
  cases h2 : faults.lastInsertId with
  | some e => exact hw1
  | none =>
    refine ⟨hw1.packid_lt, hw1.packid_unique, ?_⟩
    intro d hd
    rcases insertDeps_ids _ _ _ _ _ d hd with h | h
    · exact Nat.lt_succ_of_lt (hwf.dep_lt d h)
    · show d.ID < i.autoInc + 1
      rw [h]
      exact Nat.lt_succ_self _

/-- The prior records have pairwise distinct pack ids when their names differ. -/
theorem priorRecords_packid_nodup (i : Index) (name : Str) (hwf : i.WF)
    (hn : ((priorRecords i name).map (fun P => P.Name)).Nodup) :
    ((priorRecords i name).map (fun P => P.PackID)).Nodup := by
  cases hp : priorRecords i name with
  | nil => simp
  | cons row rest =>
    obtain ⟨hlat, hrest, -⟩ := priorRecords_shape i name row rest hp
    rcases hrest with rfl | ⟨prow, rfl, -, hlat2⟩
    · simp
    · rw [hp] at hn
      simp only [List.map_cons, List.map_nil, List.nodup_cons, List.mem_singleton,
        List.not_mem_nil, not_false_eq_true, List.nodup_nil, and_true] at hn ⊢
      intro hid
      have hne : row ≠ prow := fun h => hn (congrArg FetchRow.Name h)
      have hsym : Symmetric (fun a b : FetchRow => a.PackID ≠ b.PackID) :=
        fun a b h => fun h' => h h'.symm
      exact hwf.packid_unique.forall hsym hlat.1 hlat2.1 hne hid

/-! ## Claims about the index and the worker -/

/-- C1 (the code departs from the claim): `Fetcher.Fetch` does not return the error of
`index.AddFetch`.  With an empty database and a failing `INSERT INTO Fetches`, `AddFetch`
returns the error `connection lost` and `Fetcher.Fetch("alice/repo", "")` returns nil; with
the database holding a record of `bob/orig` and a failing `INSERT INTO PackDeps`, `AddFetch`
has written the `Fetches` row, written no `PackDeps` row, returned the error, and
`Fetcher.Fetch("bob/orig", "")` returns nil again. -/
theorem C1_addFetch_error_dropped :
    ((Fetcher.Fetch (fetcherOf ixEmpty) envInsertFails (lit "alice/repo") []).addFetchCall.map
        (fun c => c.2) = some (some ⟨lit "connection lost"⟩) ∧
      (Fetcher.Fetch (fetcherOf ixEmpty) envInsertFails (lit "alice/repo") []).err = none) ∧
    ((Fetcher.Fetch (fetcherOf ixBob) envDepFails (lit "bob/orig") []).addFetchCall.map
        (fun c => (c.1.packDeps, c.2)) = some ([1], some ⟨lit "connection lost"⟩) ∧
      (Fetcher.Fetch (fetcherOf ixBob) envDepFails (lit "bob/orig") []).f.i.Fetches.map
        (fun r => r.PackID) = [1, 2] ∧
      (Fetcher.Fetch (fetcherOf ixBob) envDepFails (lit "bob/orig") []).f.i.PackDeps = [] ∧
      (Fetcher.Fetch (fetcherOf ixBob) envDepFails (lit "bob/orig") []).err = none) := by
  decide

/-- C2, as stated, fails: with a record for `bob/orig` (pack id 1, one reference at `oidB`)
and none for `alice/fork`, the worker hands the fetch driver the nil have-set, not the
have-set holding `oidB`, and hands `AddFetch` the empty dependency list, not `[1]`. -/
theorem C2_counterexample :
    (selectQ ixBob urlBob).map (fun r => (r.PackID, r.Refs.values)) = some (1, [oidB]) ∧
      (selectQ ixBob urlFork).isNone = true ∧
      (Fetcher.Fetch (fetcherOf ixBob) (envDriver refsBob (some (lit "PACK")))
        (lit "alice/fork") (lit "bob/orig")).gitFetchCall.map
          (fun c => (c.1, c.2.map (fun h => h.keys))) = some (urlFork, none) ∧
      (Fetcher.Fetch (fetcherOf ixBob) (envDriver refsBob (some (lit "PACK")))
        (lit "alice/fork") (lit "bob/orig")).addFetchCall.map
          (fun c => c.1.packDeps) = some [] ∧
      (Fetcher.Fetch (fetcherOf ixBob) (envDriver refsBob (some (lit "PACK")))
        (lit "alice/fork") (lit "bob/orig")).addFetchCall.map
          (fun c => c.1.packDeps) ≠ some [1] := by
  decide

/-- C2, amended: for every work unit `(name, parent)` with non-empty parent, when the index
holds a record for the parent's URL but none for `name`'s URL (and no SQL statement, driver
call or copy fails), the have-set the worker hands to the fetch driver is the nil (empty)
map and the dependency list it hands to `AddFetch` is empty: `GetHaves` is asked about
`name`'s URL only. -/
theorem C2_fork_first_fetch (f : Fetcher) (env : WorkerEnv) (name parent : Str)
    (_hparent : parent ≠ [])
    (_hrec : ∃ r ∈ f.i.Fetches, r.Name = lit "https://github.com/" ++ parent ++ lit ".git")
    (hnone : ∀ r ∈ f.i.Fetches, r.Name ≠ lit "https://github.com/" ++ name ++ lit ".git")
    (hq : env.getHavesFaults.first = none)
    (hd : (env.gitFetch (lit "https://github.com/" ++ name ++ lit ".git") none).err = none)
    (hc : env.copyErr = none) :
    (Fetcher.Fetch f env name parent).gitFetchCall =
        some (lit "https://github.com/" ++ name ++ lit ".git", none) ∧
      ∃ args aerr, (Fetcher.Fetch f env name parent).addFetchCall = some (args, aerr) ∧
        args.packDeps = [] := by
  have hs := (selectQ_eq_none f.i _).mpr hnone
  have hg : GetHaves f.i env.getHavesFaults
      (lit "https://github.com/" ++ name ++ lit ".git") = ⟨none, [], none⟩ := by
    simp only [GetHaves, hq, hs]
  have hh : (GetHaves f.i env.getHavesFaults
      (lit "https://github.com/" ++ name ++ lit ".git")).err = none := by rw [hg]
  have hd' : (env.gitFetch (lit "https://github.com/" ++ name ++ lit ".git")
      (GetHaves f.i env.getHavesFaults
        (lit "https://github.com/" ++ name ++ lit ".git")).haves).err = none := by
    rw [hg]; exact hd
  obtain ⟨args, aerr, hcall⟩ := Fetch_addFetchCall_some f env name parent hh hd' hc
  have hinv := Fetch_addFetchCall_inv f env name parent args aerr hcall
  refine ⟨?_, args, aerr, hcall, ?_⟩
  · rw [hinv.2.2.2.2.2.2.2.2.2.2.2, hg]
  · rw [hinv.2.2.2.2.2.2.2.1, hg]

/-- Witness for the amended C2: the fork-bootstrap scenario of the specification. -/
theorem C2_fork_first_fetch_witness :
    (Fetcher.Fetch (fetcherOf ixBob) (envDriver refsBob (some (lit "PACK")))
        (lit "alice/fork") (lit "bob/orig")).gitFetchCall =
        some (lit "https://github.com/" ++ lit "alice/fork" ++ lit ".git", none) ∧
      ∃ args aerr, (Fetcher.Fetch (fetcherOf ixBob) (envDriver refsBob (some (lit "PACK")))
        (lit "alice/fork") (lit "bob/orig")).addFetchCall = some (args, aerr) ∧
        args.packDeps = [] :=
  C2_fork_first_fetch (fetcherOf ixBob) (envDriver refsBob (some (lit "PACK")))
    (lit "alice/fork") (lit "bob/orig") (by decide)
    ⟨_, List.mem_cons_self _ _, by decide⟩
    (by
      intro r hr
      simp only [fetcherOf, ixBob, List.mem_singleton] at hr
      subst hr
      decide)
    rfl rfl rfl
/-- C3: for every index state and every name, `GetHaves(name)` (no SQL failure) returns a
nil error; its `deps` are the pack ids of the prior records that are read, own record first;
its have-set is nil exactly when there is no such record, and otherwise holds exactly the
reference values of those records.  The records read are: none when no row has the name;
otherwise a most recent row of the name, followed by a most recent row of that row's parent
when the parent is non-empty and has a row; never a third record, so the parent's own parent
is not consulted. -/
theorem C3_GetHaves (i : Index) (name : Str) :
    (GetHaves i ⟨none, none⟩ name).err = none ∧
      (GetHaves i ⟨none, none⟩ name).deps = (priorRecords i name).map (fun P => P.PackID) ∧
      ((GetHaves i ⟨none, none⟩ name).haves = none ↔ priorRecords i name = []) ∧
      (∀ x, x ∈ ((GetHaves i ⟨none, none⟩ name).haves.getD ∅).keys ↔
        ∃ P ∈ priorRecords i name, x ∈ P.Refs.values) ∧
      (priorRecords i name = [] ↔ ∀ r ∈ i.Fetches, r.Name ≠ name) ∧
      ∀ row rest, priorRecords i name = row :: rest →
        IsLatest i name row ∧
          (rest = [] ∨ ∃ prow, rest = [prow] ∧ row.Parent ≠ [] ∧ IsLatest i row.Parent prow) ∧
          (rest = [] ↔ row.Parent = [] ∨ ∀ r ∈ i.Fetches, r.Name ≠ row.Parent) := by
  refine ⟨?_, GetHaves_deps i name, ?_, ?_, priorRecords_eq_nil i name,
    priorRecords_shape i name⟩
  · unfold GetHaves
    cases hs : selectQ i name with
    | none => rfl
    | some row =>
      by_cases hpar : row.Parent = []
      · simp [hpar]
      · cases hs2 : selectQ i row.Parent <;> simp [hpar, hs2]
  · unfold GetHaves priorRecords
    cases hs : selectQ i name with
    | none => simp
    | some row =>
      by_cases hpar : row.Parent = []
      · simp [hpar]
      · cases hs2 : selectQ i row.Parent <;> simp [hpar, hs2]
  · intro x
    unfold GetHaves priorRecords
    cases hs : selectQ i name with
    | none => simp
    | some row =>
      by_cases hpar : row.Parent = []
      · simp [hpar, mem_keys_addValues]
      · cases hs2 : selectQ i row.Parent with
        | none => simp [hpar, hs2, mem_keys_addValues]
        | some prow =>
          have hu := mem_values_union prow.Refs row.Refs x
          simp only [hpar, hs2, ne_eq, not_false_eq_true, if_true, if_false,
            Option.getD_some, Option.toList_some, mem_keys_addValues, AList.keys_empty,
            List.not_mem_nil, false_or, or_false, List.mem_cons, exists_eq_or_imp,
            exists_eq_left]
          constructor
          · rintro (h | h)
            · exact Or.inl h
            · rcases hu.1 h with h' | h'
              · exact Or.inr h'
              · exact Or.inl h'
          · rintro (h | h)
            · exact Or.inl h
            · exact Or.inr (hu.2 h)

/-- Witness for C3: the record of `bob/orig` is read, and its pack id 1 is the only
dependency. -/
theorem C3_GetHaves_witness :
    (GetHaves ixBob ⟨none, none⟩ urlBob).deps = [1] ∧
      (∀ x, x ∈ ((GetHaves ixBob ⟨none, none⟩ urlBob).haves.getD ∅).keys ↔
        ∃ P ∈ priorRecords ixBob urlBob, x ∈ P.Refs.values) :=
  ⟨(C3_GetHaves ixBob urlBob).2.1, (C3_GetHaves ixBob urlBob).2.2.2.1⟩

/-- C7, as stated, fails for the stored snapshot: with the single reference `badName`
(`refs/heads/` followed by the byte FF) at `oidA`, `git.Fetch` returns that reference, but
the row that the worker's `AddFetch` writes for this snapshot does not hold the name
`badName`; it holds `refs/heads/` followed by the bytes EF BF BD, because `json.Marshal`
replaces bytes that are not valid UTF-8. -/
theorem C7_counterexample :
    (Fetch (envOf advBadName) urlAlice ∅).res.map (fun r => r.Refs.lookup badName) =
        some (some oidA) ∧
      (Fetcher.Fetch (fetcherOf ixEmpty) (envDriver (dropPulls advBadName) (some (lit "PACK")))
        (lit "alice/repo") []).f.i.Fetches.map (fun r => (r.Refs.lookup badName, r.Refs.keys)) =
        [(none, [lit "refs/heads/" ++ [0xEF, 0xBF, 0xBD]])] := by
  decide

/-- C7, amended: when the advertisement parses to `M` and `git.Fetch` returns a result, the
reference snapshot of the result is `M` restricted to the names that do not begin with
`refs/pull/` (no such name remains, every other name keeps its object id).  The worker hands
`AddFetch` exactly the snapshot its driver call returned, and the new row of `Fetches` holds
what is read back from the JSON encoding of that snapshot.  So when the driver call returned
the snapshot of `git.Fetch`: no name of the stored snapshot begins with `refs/pull/`, and
when every retained name and object id is valid UTF-8 the stored snapshot is that same
restriction of `M`. -/
theorem C7_snapshot_without_pulls (henv : HttpEnv) (gitURL : Str) (haves : GoMap Unit)
    (res : FetchResult) (M : GoMap Str) (hM : henv.parsed = Except.ok M)
    (hres : (Fetch henv gitURL haves).res = some res)
    (f : Fetcher) (wenv : WorkerEnv) (name parent : Str)
    (args : AddFetchArgs) (aerr : Option Error)
    (hcall : (Fetcher.Fetch f wenv name parent).addFetchCall = some (args, aerr))
    (hins : wenv.addFetchFaults.insertFetch = none) :
    (∀ k, res.Refs.lookup k = if HasPrefix k (lit "refs/pull/") then none else M.lookup k) ∧
      (∃ u hv, (Fetcher.Fetch f wenv name parent).gitFetchCall = some (u, hv) ∧
        args.refs = (wenv.gitFetch u hv).refs) ∧
      (Fetcher.Fetch f wenv name parent).f.i.Fetches =
        f.i.Fetches ++
          [⟨args.name, args.parent, args.timestamp, jsonStored args.refs, f.i.autoInc,
            args.packRef⟩] ∧
      (args.refs = res.Refs →
        (∀ k ∈ (jsonStored args.refs).keys, HasPrefix k (lit "refs/pull/") = false) ∧
        ((∀ e ∈ M.entries, HasPrefix e.1 (lit "refs/pull/") = false →
            jsonSafe e.1 = true ∧ jsonSafe e.2 = true) →
          ∀ k, (jsonStored args.refs).lookup k =
            if HasPrefix k (lit "refs/pull/") then none else M.lookup k)) := by
  obtain ⟨M', hM', hrefs, -⟩ := Fetch_res henv gitURL haves res hres
  rw [hM] at hM'
  cases hM'
  have hinv := Fetch_addFetchCall_inv f wenv name parent args aerr hcall
  have hlook : ∀ k, res.Refs.lookup k =
      if HasPrefix k (lit "refs/pull/") then none else M.lookup k :=
    fun k => by rw [hrefs]; exact dropPulls_lookup M k
  refine ⟨hlook, ⟨_, _, hinv.2.2.2.2.2.2.2.2.2.2.2, hinv.2.2.2.2.2.1⟩, ?_, ?_⟩
  · have hadd := hinv.2.2.2.2.2.2.2.2.1
    have hf := AddFetch_fetches f.i wenv.addFetchFaults args.name args.parent args.timestamp
      args.refs args.packRef args.packDeps hins
    rw [hadd] at hf
    exact hf
  · intro hargs
    rw [hargs]
    constructor
    · intro k hk
      obtain ⟨e, he, rfl⟩ := jsonStored_keys res.Refs k hk
      rw [hasPrefix_jsonString (lit "refs/pull/") (by decide)]
      rw [hrefs, dropPulls_entries, List.mem_filter] at he
      simpa using he.2
    · intro hsafe k
      rw [jsonStored_lookup res.Refs ?_ k]
      · exact hlook k
      · intro e he
        rw [hrefs, dropPulls_entries, List.mem_filter] at he
        exact hsafe e he.1 (by simpa using he.2)

/-- Witness for the amended C7: the fresh-clone advertisement, stored by the worker for
`alice/repo`; the stored snapshot holds the branch at `oidA` and nothing else. -/
theorem C7_snapshot_without_pulls_witness :
    (Fetcher.Fetch (fetcherOf ixEmpty) (envDriver (dropPulls advFresh) (some (lit "PACK")))
        (lit "alice/repo") []).f.i.Fetches =
        [⟨urlAlice, [], 20, jsonStored (dropPulls advFresh), 1,
          lit "https://github.com/alice/repo.git|1500"⟩] ∧
      ∀ k, (jsonStored (dropPulls advFresh)).lookup k =
        if HasPrefix k (lit "refs/pull/") then none else advFresh.lookup k :=
  ⟨(C7_snapshot_without_pulls (envOf advFresh) urlAlice ∅
      ⟨dropPulls advFresh, [oidA], lit "pack", 4⟩ advFresh rfl rfl
      (fetcherOf ixEmpty) (envDriver (dropPulls advFresh) (some (lit "PACK")))
      (lit "alice/repo") []
      ⟨urlAlice, [], 20, dropPulls advFresh, lit "https://github.com/alice/repo.git|1500", []⟩
      none rfl rfl).2.2.1,
    ((C7_snapshot_without_pulls (envOf advFresh) urlAlice ∅
      ⟨dropPulls advFresh, [oidA], lit "pack", 4⟩ advFresh rfl rfl
      (fetcherOf ixEmpty) (envDriver (dropPulls advFresh) (some (lit "PACK")))
      (lit "alice/repo") []
      ⟨urlAlice, [], 20, dropPulls advFresh, lit "https://github.com/alice/repo.git|1500", []⟩
      none rfl rfl).2.2.2 rfl).2 (by decide)⟩

/-- C9, as stated, fails: after `a/b` was fetched once as a fork of itself (one record, pack
id 1, whose parent is its own URL), the next fetch of `a/b` reads that record twice, hands
`AddFetch` the dependency list `[1, 1]`, and the new record (pack id 2) gets two edges to
pack id 1. -/
theorem C9_counterexample :
    ixSelf.Fetches.map (fun r => (r.Name, r.Parent, r.PackID)) =
        [(lit "https://github.com/a/b.git", lit "https://github.com/a/b.git", 1)] ∧
      (Fetcher.Fetch (fetcherOf ixSelf) (envDriver refsBob (some (lit "PACK"))) (lit "a/b")
        (lit "a/b")).addFetchCall.map (fun c => (c.1.packDeps, c.2)) = some ([1, 1], none) ∧
      (Fetcher.Fetch (fetcherOf ixSelf) (envDriver refsBob (some (lit "PACK"))) (lit "a/b")
        (lit "a/b")).f.i.PackDeps.filter (fun d => d.ID = 2) = [⟨2, 1⟩, ⟨2, 1⟩] ∧
      ¬ ((Fetcher.Fetch (fetcherOf ixSelf) (envDriver refsBob (some (lit "PACK"))) (lit "a/b")
        (lit "a/b")).f.i.PackDeps.filter (fun d => d.ID = 2)).Nodup := by
  decide

/-- C9, amended: for every index state that satisfies the invariants of the schema and
every work unit for which the prior records that `GetHaves` reads have different names
(the latest record of the repository does not name the repository itself as its parent):
when `Fetcher.Fetch` reaches `AddFetch` and `AddFetch` returns nil, a new record with the
next pack id is in `Fetches`, the `PackDeps` rows whose `ID` is that pack id are exactly one
row per prior record, pointing to that record's pack id, and no pack id occurs twice among
them. -/
theorem C9_one_edge_per_prior_record (f : Fetcher) (env : WorkerEnv) (name parent : Str)
    (args : AddFetchArgs) (hwf : f.i.WF)
    (hdistinct : ((priorRecords f.i (lit "https://github.com/" ++ name ++ lit ".git")).map
      (fun P => P.Name)).Nodup)
    (hcall : (Fetcher.Fetch f env name parent).addFetchCall = some (args, none)) :
    (∃ row ∈ (Fetcher.Fetch f env name parent).f.i.Fetches,
        row.PackID = f.i.autoInc ∧
          row.Name = lit "https://github.com/" ++ name ++ lit ".git") ∧
      (Fetcher.Fetch f env name parent).f.i.PackDeps.filter (fun d => d.ID = f.i.autoInc) =
        (priorRecords f.i (lit "https://github.com/" ++ name ++ lit ".git")).map
          (fun P => ⟨f.i.autoInc, P.PackID⟩) ∧
      ((Fetcher.Fetch f env name parent).f.i.PackDeps.filter
        (fun d => d.ID = f.i.autoInc)).Nodup ∧
      (∀ P ∈ priorRecords f.i (lit "https://github.com/" ++ name ++ lit ".git"),
        ((Fetcher.Fetch f env name parent).f.i.PackDeps.filter
          (fun d => d.ID = f.i.autoInc)).count ⟨f.i.autoInc, P.PackID⟩ = 1) ∧
      ∀ d ∈ (Fetcher.Fetch f env name parent).f.i.PackDeps, d.ID = f.i.autoInc →
        ∃ P ∈ priorRecords f.i (lit "https://github.com/" ++ name ++ lit ".git"),
          d.Dep = P.PackID := by
  have hinv := Fetch_addFetchCall_inv f env name parent args none hcall
  have hg := GetHaves_of_err_none f.i env.getHavesFaults _ hinv.1
  have hdeps : args.packDeps =
      (priorRecords f.i (lit "https://github.com/" ++ name ++ lit ".git")).map
        (fun P => P.PackID) := by
    rw [hinv.2.2.2.2.2.2.2.1, hg]
    exact GetHaves_deps f.i _
  obtain ⟨hF, hD, -⟩ := AddFetch_ok _ _ _ _ _ _ _ _ _ hinv.2.2.2.2.2.2.2.2.1
  have hold : f.i.PackDeps.filter (fun d => d.ID = f.i.autoInc) = [] := by
    rw [List.filter_eq_nil_iff]
    intro d hd
    have := hwf.dep_lt d hd
    simp only [decide_eq_true_eq]
    omega
  have hnew : (args.packDeps.map (fun d => (⟨f.i.autoInc, d⟩ : PackDep))).filter
      (fun d => d.ID = f.i.autoInc) = args.packDeps.map (fun d => ⟨f.i.autoInc, d⟩) := by
    rw [List.filter_eq_self]
    intro d hd
    obtain ⟨x, -, rfl⟩ := List.mem_map.mp hd
    simp
  have hedges : (Fetcher.Fetch f env name parent).f.i.PackDeps.filter
      (fun d => d.ID = f.i.autoInc) =
      (priorRecords f.i (lit "https://github.com/" ++ name ++ lit ".git")).map
        (fun P => ⟨f.i.autoInc, P.PackID⟩) := by
    rw [hD, List.filter_append, hold, hnew, hdeps, List.nil_append, List.map_map]
    rfl
  have hnd := priorRecords_packid_nodup f.i _ hwf hdistinct
  have hnd' : ((priorRecords f.i (lit "https://github.com/" ++ name ++ lit ".git")).map
      (fun P => (⟨f.i.autoInc, P.PackID⟩ : PackDep))).Nodup := by
    have : (fun P : FetchRow => (⟨f.i.autoInc, P.PackID⟩ : PackDep)) =
        (fun p => (⟨f.i.autoInc, p⟩ : PackDep)) ∘ (fun P : FetchRow => P.PackID) := rfl
    rw [this, ← List.map_map]
    exact hnd.map (fun a b h => by simpa using h)
  refine ⟨?_, hedges, ?_, ?_, ?_⟩
  · refine ⟨⟨args.name, args.parent, args.timestamp, jsonStored args.refs, f.i.autoInc,
        args.packRef⟩,
      ?_, rfl, hinv.2.2.1⟩
    rw [hF]
    exact List.mem_append_right _ (List.mem_singleton_self _)
  · rw [hedges]; exact hnd'
  · intro P hP
    rw [hedges]
    exact List.count_eq_one_of_mem hnd' (List.mem_map_of_mem _ hP)
  · intro d hd hid
    have : d ∈ (Fetcher.Fetch f env name parent).f.i.PackDeps.filter
        (fun d => d.ID = f.i.autoInc) := List.mem_filter.mpr ⟨hd, by simpa using hid⟩
    rw [hedges] at this
    obtain ⟨P, hP, rfl⟩ := List.mem_map.mp this
    exact ⟨P, hP, rfl⟩

theorem WF_ixBob : ixBob.WF := by
  refine ⟨?_, ?_, ?_⟩
  · intro r hr
    simp only [ixBob, List.mem_singleton] at hr
    subst hr
    decide
  · simp [ixBob]
  · simp [ixBob]

/-- Witness for the amended C9: the incremental fetch of `bob/orig`; the new
record (pack id 2) gets the single edge to pack id 1. -/
theorem C9_one_edge_per_prior_record_witness :
    ixBob.WF ∧
      (Fetcher.Fetch (fetcherOf ixBob) (envDriver refsBob (some (lit "PACK"))) (lit "bob/orig")
        []).f.i.PackDeps.filter (fun d => d.ID = 2) = [⟨2, 1⟩] ∧
      ((Fetcher.Fetch (fetcherOf ixBob) (envDriver refsBob (some (lit "PACK")))
        (lit "bob/orig") []).f.i.PackDeps.filter (fun d => d.ID = 2)).Nodup :=
  ⟨WF_ixBob,
    (C9_one_edge_per_prior_record (fetcherOf ixBob) (envDriver refsBob (some (lit "PACK")))
      (lit "bob/orig") []
      ⟨urlBob, [], 20, refsBob, lit "https://github.com/bob/orig.git|1500", [1]⟩
      WF_ixBob (by decide) rfl).2.1,
    (C9_one_edge_per_prior_record (fetcherOf ixBob) (envDriver refsBob (some (lit "PACK")))
      (lit "bob/orig") []
      ⟨urlBob, [], 20, refsBob, lit "https://github.com/bob/orig.git|1500", [1]⟩
      WF_ixBob (by decide) rfl).2.2.1⟩

theorem hasPrefix_empty_url (s : Str) :
    HasPrefix (lit "https://github.com/" ++ s) (lit "EMPTY|") = false := by
  have h : lit "https://github.com/" = 104 :: lit "ttps://github.com/" := by decide
  have h2 : lit "EMPTY|" = 69 :: lit "MPTY|" := by decide
  rw [h, h2]
  simp [HasPrefix, List.isPrefixOf]

theorem hasPrefix_self_append (p s : Str) : HasPrefix (p ++ s) p = true := by
  unfold HasPrefix
  rw [List.isPrefixOf_iff_prefix]
  exact List.prefix_append p s

/-- C10: for every name, every clock reading and every fetch in which `GetHaves` and the
driver return a nil error and the copy does not fail, the worker calls `AddFetch` with the
pack reference `https://github.com/<name>.git|<ns>` when the driver delivered a pack and
with `EMPTY|https://github.com/<name>.git|<ns>` when it delivered none; so the recorded
pack reference begins with `EMPTY|` exactly when no pack was delivered; the bucket is left
unchanged when no pack was delivered; when a pack was delivered and the writer's `Close`
succeeds, the pack is written as the object named by the recorded pack reference (and
nothing is written when `Close` fails); and the row that `AddFetch` inserts carries that
pack reference. -/
theorem C10_pack_ref (f : Fetcher) (env : WorkerEnv) (name parent : Str)
    (hh : (GetHaves f.i env.getHavesFaults
      (lit "https://github.com/" ++ name ++ lit ".git")).err = none)
    (hd : (env.gitFetch (lit "https://github.com/" ++ name ++ lit ".git")
      (GetHaves f.i env.getHavesFaults
        (lit "https://github.com/" ++ name ++ lit ".git")).haves).err = none)
    (hc : env.copyErr = none) (hins : env.addFetchFaults.insertFetch = none) :
    ∃ args aerr, (Fetcher.Fetch f env name parent).addFetchCall = some (args, aerr) ∧
      (∀ pack, (env.gitFetch (lit "https://github.com/" ++ name ++ lit ".git")
          (GetHaves f.i env.getHavesFaults
            (lit "https://github.com/" ++ name ++ lit ".git")).haves).r = some pack →
        args.packRef =
            lit "https://github.com/" ++ name ++ lit ".git" ++ lit "|" ++ fmtInt env.unixNano ∧
          (env.closeErr = none →
            (Fetcher.Fetch f env name parent).f.bucket = (args.packRef, pack) :: f.bucket) ∧
          (env.closeErr ≠ none → (Fetcher.Fetch f env name parent).f.bucket = f.bucket)) ∧
      ((env.gitFetch (lit "https://github.com/" ++ name ++ lit ".git")
          (GetHaves f.i env.getHavesFaults
            (lit "https://github.com/" ++ name ++ lit ".git")).haves).r = none →
        args.packRef =
            lit "EMPTY|" ++ (lit "https://github.com/" ++ name ++ lit ".git" ++ lit "|" ++
              fmtInt env.unixNano) ∧
          (Fetcher.Fetch f env name parent).f.bucket = f.bucket) ∧
      (HasPrefix args.packRef (lit "EMPTY|") = true ↔
        (env.gitFetch (lit "https://github.com/" ++ name ++ lit ".git")
          (GetHaves f.i env.getHavesFaults
            (lit "https://github.com/" ++ name ++ lit ".git")).haves).r = none) ∧
      ∃ row ∈ (Fetcher.Fetch f env name parent).f.i.Fetches,
        row.PackID = f.i.autoInc ∧ row.PackRef = args.packRef := by
  obtain ⟨args, aerr, hcall⟩ := Fetch_addFetchCall_some f env name parent hh hd hc
  have hinv := Fetch_addFetchCall_inv f env name parent args aerr hcall
  have hpr := hinv.2.2.2.2.2.2.1
  have hbucket := hinv.2.2.2.2.2.2.2.2.2.1
  have hadd := hinv.2.2.2.2.2.2.2.2.1
  refine ⟨args, aerr, hcall, ?_, ?_, ?_, ?_⟩
  · intro pack hr
    rw [hr] at hpr hbucket
    refine ⟨hpr, fun hcl => ?_, fun hcl => ?_⟩
    · rw [hbucket]; simp [hcl]
    · rw [hbucket]; simp [hcl]
  · intro hr
    rw [hr] at hpr hbucket
    exact ⟨hpr, hbucket⟩
  · cases hr : (env.gitFetch (lit "https://github.com/" ++ name ++ lit ".git")
        (GetHaves f.i env.getHavesFaults
          (lit "https://github.com/" ++ name ++ lit ".git")).haves).r with
    | none =>
      rw [hr] at hpr
      simp only [hpr, hasPrefix_self_append]
    | some pack =>
      rw [hr] at hpr
      simp only [hpr, List.append_assoc, hasPrefix_empty_url]
      simp
  · have hf := AddFetch_fetches f.i env.addFetchFaults args.name args.parent args.timestamp
      args.refs args.packRef args.packDeps hins
    rw [hadd] at hf
    refine ⟨⟨args.name, args.parent, args.timestamp, jsonStored args.refs, f.i.autoInc,
        args.packRef⟩,
      ?_, rfl, rfl⟩
    rw [hf]
    exact List.mem_append_right _ (List.mem_singleton_self _)

/-- Witness for C10: a fetch of `alice/repo` in which the driver delivers a pack, which is
written to the bucket under the recorded name, and one in which it delivers none. -/
theorem C10_pack_ref_witness :
    (∃ args aerr, (Fetcher.Fetch (fetcherOf ixEmpty) (envDriver refsBob (some (lit "PACK")))
        (lit "alice/repo") []).addFetchCall = some (args, aerr) ∧
      args.packRef = lit "https://github.com/alice/repo.git|1500" ∧
      HasPrefix args.packRef (lit "EMPTY|") = false ∧
      (Fetcher.Fetch (fetcherOf ixEmpty) (envDriver refsBob (some (lit "PACK")))
        (lit "alice/repo") []).f.bucket =
          [(lit "https://github.com/alice/repo.git|1500", lit "PACK")]) ∧
    (∃ args aerr, (Fetcher.Fetch (fetcherOf ixEmpty) (envDriver refsBob none)
        (lit "alice/repo") []).addFetchCall = some (args, aerr) ∧
      args.packRef = lit "EMPTY|https://github.com/alice/repo.git|1500" ∧
      HasPrefix args.packRef (lit "EMPTY|") = true ∧
      (Fetcher.Fetch (fetcherOf ixEmpty) (envDriver refsBob none)
        (lit "alice/repo") []).f.bucket = []) := by
  constructor
  · obtain ⟨args, aerr, hcall, hsome, -, hiff, -⟩ :=
      C10_pack_ref (fetcherOf ixEmpty) (envDriver refsBob (some (lit "PACK")))
        (lit "alice/repo") [] rfl rfl rfl rfl
    have h := hsome (lit "PACK") rfl
    refine ⟨args, aerr, hcall, h.1, ?_, ?_⟩
    · cases hp : HasPrefix args.packRef (lit "EMPTY|") with
      | false => rfl
      | true => exact absurd (hiff.mp hp) (by decide)
    · rw [h.2.1 rfl, h.1]
      rfl
  · obtain ⟨args, aerr, hcall, -, hnone, hiff, -⟩ :=
      C10_pack_ref (fetcherOf ixEmpty) (envDriver refsBob none) (lit "alice/repo") []
        rfl rfl rfl rfl
    exact ⟨args, aerr, hcall, (hnone rfl).1, hiff.mpr rfl, (hnone rfl).2⟩

/-! ## Determinism of the request -/

theorem has_eq_of_keys_perm (H1 H2 : GoMap Unit) (h : H1.keys.Perm H2.keys) (x : Str) :
    H1.has x = H2.has x := by
  have e : ∀ H : GoMap Unit, H.has x = true ↔ x ∈ H.keys := fun H => by
    unfold GoMap.has
    rw [AList.lookup_isSome, AList.mem_keys]
  have : H1.has x = true ↔ H2.has x = true := by rw [e, e, h.mem_iff]
  cases h1 : H1.has x <;> cases h2 : H2.has x <;> simp_all

theorem dropPulls_perm (M1 M2 : GoMap Str) (h : M1.entries.Perm M2.entries) :
    (dropPulls M1).entries.Perm (dropPulls M2).entries := by
  rw [dropPulls_entries, dropPulls_entries]
  exact h.filter _

theorem collectWants_perm (R1 R2 : GoMap Str) (H1 H2 : GoMap Unit)
    (hR : R1.entries.Perm R2.entries) (hH : H1.keys.Perm H2.keys) :
    (collectWants R1 H1).Perm (collectWants R2 H2) := by
  rw [collectWants_eq, collectWants_eq]
  have hf : (fun e : (Σ _ : Str, Str) => !H1.has e.2) = (fun e => !H2.has e.2) := by
    funext e
    rw [has_eq_of_keys_perm H1 H2 hH]
  rw [hf]
  exact (hR.filter _).map _

theorem sortStrings_congr (l1 l2 : List Str) (h : l1.Perm l2) :
    sortStrings l1 = sortStrings l2 :=
  sortStrings_unique l2 (sortStrings l1) ((sortStrings_perm l1).trans h) (sortStrings_sorted l1)

theorem foldl_haveStep_append (hs : List Str) :
    ∀ (body : Str), hs.foldl haveStep body = body ++ haveSection hs := by
  unfold haveSection
  induction hs with
  | nil => intro body; simp
  | cons h hs ih =>
    intro body
    rw [List.foldl_cons, List.foldl_cons, ih (haveStep body h), ih (haveStep [] h)]
    simp only [haveStep, List.nil_append, List.append_assoc]

/-- The request body is the want section (up to and including `0000`), the have lines, and
`0009done\n`. -/
theorem requestBody_sections (wants : List Str) (haves : GoMap Unit) :
    requestBody wants haves =
      wantSection wants ++ haveSection haves.keys ++ lit "0009done\n" := by
  unfold requestBody wantSection
  simp only []
  rw [foldl_haveStep_append]

/-- When the advertisement is fetched and parsed and no want is collected, only the `GET`
is handed to the client. -/
theorem Fetch_requests_nil (env : HttpEnv) (gitURL : Str) (haves : GoMap Unit) (M : GoMap Str)
    (h1 : env.newGetErr = none) (h2 : env.getErr = none) (h3 : env.getStatus = 200)
    (hM : env.parsed = Except.ok M) (hw : collectWants (dropPulls M) haves = []) :
    (Fetch env gitURL haves).requests =
      [⟨lit "GET", gitURL ++ lit "/info/refs?service=git-upload-pack", []⟩] := by
  unfold Fetch
  simp [h1, h2, h3, hM, hw, sortStrings]

/-- C11: take two runs of `git.Fetch` on the same refs map and the same have-set, each
visited in an arbitrary order (`M1`, `M2` list the same entries, `H1`, `H2` the same keys,
and `R1`, `R2` are the orders in which the second loop visits the map left by the deletion
loop).  The two runs compute the same sorted want list and byte-identical want sections
(the body up to and including `0000`); each body is its want section followed by its have
lines and `0009done\n`; and when the have-set is visited in the same order, the two bodies
are byte-identical.  For `git.Fetch` itself: the returned `Wants` agree, and with the same
have order the requests handed to the HTTP client agree. -/
theorem C11_request_deterministic (env1 env2 : HttpEnv) (gitURL : Str)
    (M1 M2 R1 R2 : GoMap Str) (H1 H2 : GoMap Unit)
    (a1 : Advertised env1 M1) (a2 : Advertised env2 M2)
    (hM : M1.entries.Perm M2.entries) (hH : H1.keys.Perm H2.keys)
    (hR1 : R1.entries.Perm (dropPulls M1).entries)
    (hR2 : R2.entries.Perm (dropPulls M2).entries) :
    sortStrings (collectWants R1 H1) = sortStrings (collectWants R2 H2) ∧
      wantSection (sortStrings (collectWants R1 H1)) =
        wantSection (sortStrings (collectWants R2 H2)) ∧
      requestBody (sortStrings (collectWants R1 H1)) H1 =
        wantSection (sortStrings (collectWants R1 H1)) ++ haveSection H1.keys ++
          lit "0009done\n" ∧
      requestBody (sortStrings (collectWants R2 H2)) H2 =
        wantSection (sortStrings (collectWants R1 H1)) ++ haveSection H2.keys ++
          lit "0009done\n" ∧
      (H1.keys = H2.keys →
        requestBody (sortStrings (collectWants R1 H1)) H1 =
          requestBody (sortStrings (collectWants R2 H2)) H2) ∧
      (∀ r1 r2, (Fetch env1 gitURL H1).res = some r1 → (Fetch env2 gitURL H2).res = some r2 →
        r1.Wants = r2.Wants) ∧
      (H1.keys = H2.keys →
        (Fetch env1 gitURL H1).requests = (Fetch env2 gitURL H2).requests) := by
  have hperm : ∀ (A B : GoMap Str), A.entries.Perm (dropPulls M1).entries →
      B.entries.Perm (dropPulls M2).entries →
      sortStrings (collectWants A H1) = sortStrings (collectWants B H2) := by
    intro A B hA hB
    apply sortStrings_congr
    exact collectWants_perm A B H1 H2 ((hA.trans (dropPulls_perm M1 M2 hM)).trans hB.symm) hH
  have hw := hperm R1 R2 hR1 hR2
  have hw0 := hperm (dropPulls M1) (dropPulls M2) (List.Perm.refl _) (List.Perm.refl _)
  obtain ⟨g1, g2, g3, g4, g5⟩ := a1
  obtain ⟨k1, k2, k3, k4, k5⟩ := a2
  refine ⟨hw, by rw [hw], requestBody_sections _ _, ?_, ?_, ?_, ?_⟩
  · rw [requestBody_sections, hw]
  · intro hk
    rw [requestBody_sections, requestBody_sections, hw, hk]
  · intro r1 r2 e1 e2
    obtain ⟨M1', p1, -, w1⟩ := Fetch_res env1 gitURL H1 r1 e1
    obtain ⟨M2', p2, -, w2⟩ := Fetch_res env2 gitURL H2 r2 e2
    rw [g4] at p1
    rw [k4] at p2
    cases p1
    cases p2
    rw [w1, w2, hw0]
  · intro hk
    by_cases hnil : collectWants (dropPulls M1) H1 = []
    · have hnil2 : collectWants (dropPulls M2) H2 = [] := by
        have hp := collectWants_perm (dropPulls M1) (dropPulls M2) H1 H2
          (dropPulls_perm M1 M2 hM) hH
        rw [hnil] at hp
        exact List.Perm.nil_eq hp |>.symm
      rw [Fetch_requests_nil env1 gitURL H1 M1 g1 g2 g3 g4 hnil,
        Fetch_requests_nil env2 gitURL H2 M2 k1 k2 k3 k4 hnil2]
    · have hnil2 : collectWants (dropPulls M2) H2 ≠ [] := by
        intro h2
        have hp := collectWants_perm (dropPulls M1) (dropPulls M2) H1 H2
          (dropPulls_perm M1 M2 hM) hH
        rw [h2] at hp
        exact hnil hp.eq_nil
      rw [Fetch_requests env1 gitURL H1 M1 g1 g2 g3 g4 g5 hnil,
        Fetch_requests env2 gitURL H2 M2 k1 k2 k3 k4 k5 hnil2, hw0,
        requestBody_sections, requestBody_sections, hk]

/-- Witness for C11: the map with two branches and a pull reference, visited in two
different orders, with the same have-set. -/
theorem C11_request_deterministic_witness :
    (Fetch (envOf advTwoBranches) urlAlice havesC).requests =
      (Fetch (envOf advTwoBranchesRev) urlAlice havesC).requests :=
  (C11_request_deterministic (envOf advTwoBranches) (envOf advTwoBranchesRev) urlAlice
    advTwoBranches advTwoBranchesRev (dropPulls advTwoBranches) (dropPulls advTwoBranchesRev)
    havesC havesC ⟨rfl, rfl, rfl, rfl, rfl⟩ ⟨rfl, rfl, rfl, rfl, rfl⟩ (by decide)
    (List.Perm.refl _) (List.Perm.refl _) (List.Perm.refl _)).2.2.2.2.2.2 rfl

/-! ## The want lines without any assumption on the object ids -/

theorem strLe_nil (x : Str) : strLe [] x = true := by
  cases x <;> rfl

theorem ne_nil_of_strLe (w x : Str) (hw : w ≠ []) (h : strLe w x = true) : x ≠ [] := by
  rintro rfl
  cases w with
  | nil => exact hw rfl
  | cons a as => simp [strLe, strLess] at h

/-- The want loop, once a first want has been written, for wants that are not empty. -/
theorem foldl_wantStep_go (ws : List Str) :
    ∀ (body last : Str), last ≠ [] → (∀ w ∈ ws, w ≠ []) →
      (ws.foldl wantStep (body, last)).1 =
        body ++ catStrs ((distinctFrom last ws).map
          (fun w => goFrame (lit "want " ++ w ++ lit "\n"))) := by
  induction ws with
  | nil => intro body last _ _; simp [distinctFrom, catStrs]
  | cons w ws ih =>
    intro body last hlast hne
    have hw : w ≠ [] := hne w (List.mem_cons_self _ _)
    have hws : ∀ x ∈ ws, x ≠ [] := fun x hx => hne x (List.mem_cons_of_mem _ hx)
    rw [List.foldl_cons]
    by_cases heq : last = w
    · have hstep : wantStep (body, last) w = (body, w) := by
        simp [wantStep, heq]
      rw [hstep, ih body w hw hws]
      simp [distinctFrom, heq]
    · have hstep : wantStep (body, last) w =
          (body ++ goFrame (lit "want " ++ w ++ lit "\n"), w) := by
        simp only [wantStep, heq, hlast, if_false, goFrame]
      rw [hstep, ih _ w hw hws]
      simp [distinctFrom, heq, catStrs, List.append_assoc]

/-- The want loop on an ascending list of wants: leading empty strings are skipped (they
equal the initial value of `last`), the first non-empty want is written with the capability
list, and the later distinct wants without. -/
theorem foldl_wantStep_sorted (ws : List Str) :
    ws.Sorted (fun a b => strLe a b = true) →
      (ws.foldl wantStep ([], [])).1 = goWantFrames (distinctFrom [] ws) := by
  induction ws with
  | nil => intro _; rfl
  | cons w ws ih =>
    intro hs
    rw [List.foldl_cons]
    by_cases hw : w = []
    · subst hw
      have hstep : wantStep (([] : Str), ([] : Str)) [] = ([], []) := by simp [wantStep]
      rw [hstep, ih hs.of_cons]
      simp [distinctFrom]
    · have hne : ¬ (([] : Str) = w) := fun h => hw h.symm
      have hstep : wantStep (([] : Str), ([] : Str)) w =
          (goFrame (lit "want " ++ w ++ lit " ofs-delta side-band-64k thin-pack" ++ lit "\n"),
            w) := by
        simp only [wantStep, hne, if_false, if_true, List.nil_append, goFrame]
      have hws : ∀ x ∈ ws, x ≠ [] := fun x hx =>
        ne_nil_of_strLe w x hw (List.rel_of_sorted_cons hs x hx)
      rw [hstep, foldl_wantStep_go ws _ w hw hws]
      simp [distinctFrom, hne, goWantFrames]

/-- On an ascending list, the wants that get a line are strictly ascending, and they are the
non-empty members of the list. -/
theorem distinctFrom_nil_sorted (ws : List Str)
    (hs : ws.Sorted (fun a b => strLe a b = true)) :
    (distinctFrom [] ws).Pairwise (fun a b => strLess a b = true) ∧
      ∀ x, x ∈ distinctFrom [] ws ↔ x ≠ [] ∧ x ∈ ws := by
  have hs0 : (([] : Str) :: ws).Sorted (fun a b => strLe a b = true) :=
    List.sorted_cons.mpr ⟨fun b _ => strLe_nil b, hs⟩
  obtain ⟨hp, hm⟩ := distinctFrom_sorted ws [] hs0
  rw [List.pairwise_cons] at hp
  have hpos : ∀ x ∈ distinctFrom [] ws, x ≠ [] := by
    intro x hx hnil
    have := hp.1 x hx
    rw [hnil, strLess_irrefl] at this
    cases this
  refine ⟨hp.2, fun x => ⟨fun hx => ⟨hpos x hx, ?_⟩, fun hx => ?_⟩⟩
  · rcases List.mem_cons.mp ((hm x).mp (List.mem_cons_of_mem _ hx)) with h | h
    · exact absurd h (hpos x hx)
    · exact h
  · rcases List.mem_cons.mp ((hm x).mpr (List.mem_cons_of_mem _ hx.2)) with h | h
    · exact absurd h hx.1
    · exact h

/-- C14, as stated, fails: a reference whose object id is the empty string is wanted, and
`git.Fetch` goes on to post a body, but that body has no want line for it.  With that
reference alone the body is `0000`, `0009done\n` (no want line at all); with a second
reference at `oidA` the body has the single want line of `oidA`. -/
theorem C14_counterexample :
    ((Fetch (envOf advEmptyOid) urlAlice ∅).res.map (fun r => r.Wants) = some [[]] ∧
      (Fetch (envOf advEmptyOid) urlAlice ∅).requests =
        [⟨lit "GET", urlAlice ++ lit "/info/refs?service=git-upload-pack", []⟩,
          ⟨lit "POST", urlAlice ++ lit "/git-upload-pack", lit "00000009done\n"⟩]) ∧
    ((Fetch (envOf advEmptyAndA) urlAlice ∅).res.map (fun r => r.Wants) = some [[], oidA] ∧
      (Fetch (envOf advEmptyAndA) urlAlice ∅).requests =
        [⟨lit "GET", urlAlice ++ lit "/info/refs?service=git-upload-pack", []⟩,
          ⟨lit "POST", urlAlice ++ lit "/git-upload-pack", bodyFresh⟩]) := by
  decide

/-- C14, amended: for every refs map and every have-set, with no assumption on the shape of
the object ids other than that no wanted object id is the empty string: when the
advertisement is fetched and parsed and the want list is non-empty, `git.Fetch` posts a body
that begins with at least one want line; the want lines are one per distinct wanted object
id, in strictly ascending order, so every wanted object id has one; the first of these
lines, and no other, is built with the capability list; they are followed by `0000`, the
have lines and `0009done\n`. -/
theorem C14_want_lines (env : HttpEnv) (gitURL : Str) (haves : GoMap Unit) (M : GoMap Str)
    (a : Advertised env M)
    (hne : ∃ e ∈ M.entries, HasPrefix e.1 (lit "refs/pull/") = false ∧ haves.has e.2 = false)
    (hpos : ∀ e ∈ M.entries, HasPrefix e.1 (lit "refs/pull/") = false →
      haves.has e.2 = false → e.2 ≠ []) :
    ∃ ds : List Str, ds ≠ [] ∧ ds.Pairwise (fun a b => strLess a b = true) ∧
      (∀ x, x ∈ ds ↔
        ∃ e ∈ M.entries, HasPrefix e.1 (lit "refs/pull/") = false ∧ e.2 = x ∧
          haves.has x = false) ∧
      (Fetch env gitURL haves).requests =
        [⟨lit "GET", gitURL ++ lit "/info/refs?service=git-upload-pack", []⟩,
          ⟨lit "POST", gitURL ++ lit "/git-upload-pack",
            goWantFrames ds ++ lit "0000" ++ haveSection haves.keys ++ lit "0009done\n"⟩] := by
  obtain ⟨h1, h2, h3, hM, h5⟩ := a
  have hmem : ∀ x, x ∈ sortStrings (collectWants (dropPulls M) haves) ↔
      ∃ e ∈ M.entries, HasPrefix e.1 (lit "refs/pull/") = false ∧ e.2 = x ∧
        haves.has x = false := by
    intro x
    rw [(sortStrings_perm _).mem_iff, mem_collectWants]
    constructor
    · rintro ⟨name, hl, hh⟩
      rw [dropPulls_lookup] at hl
      split_ifs at hl with hp
      exact ⟨⟨name, x⟩, AList.mem_lookup_iff.mp hl, by simpa using hp, rfl, hh⟩
    · rintro ⟨e, he, hp, rfl, hh⟩
      refine ⟨e.1, ?_, hh⟩
      rw [dropPulls_lookup]
      simp only [hp, Bool.false_eq_true, if_false]
      exact AList.mem_lookup_iff.mpr he
  have hcw : collectWants (dropPulls M) haves ≠ [] := by
    obtain ⟨e, he, hp, hh⟩ := hne
    have : e.2 ∈ sortStrings (collectWants (dropPulls M) haves) :=
      (hmem e.2).mpr ⟨e, he, hp, rfl, hh⟩
    rw [(sortStrings_perm _).mem_iff] at this
    exact List.ne_nil_of_mem this
  have hsorted := sortStrings_sorted (collectWants (dropPulls M) haves)
  obtain ⟨hp, hm⟩ := distinctFrom_nil_sorted _ hsorted
  have hds : ∀ x, x ∈ distinctFrom [] (sortStrings (collectWants (dropPulls M) haves)) ↔
      ∃ e ∈ M.entries, HasPrefix e.1 (lit "refs/pull/") = false ∧ e.2 = x ∧
        haves.has x = false := by
    intro x
    rw [hm x, hmem x]
    constructor
    · exact fun h => h.2
    · rintro ⟨e, he, hpre, rfl, hh⟩
      exact ⟨hpos e he hpre hh, e, he, hpre, rfl, hh⟩
  refine ⟨distinctFrom [] (sortStrings (collectWants (dropPulls M) haves)), ?_, hp, hds, ?_⟩
  · obtain ⟨e, he, hpre, hh⟩ := hne
    exact List.ne_nil_of_mem ((hds e.2).mpr ⟨e, he, hpre, rfl, hh⟩)
  · rw [Fetch_requests env gitURL haves M h1 h2 h3 hM h5 hcw, requestBody_sections]
    unfold wantSection
    rw [foldl_wantStep_sorted _ hsorted]

/-- Witness for the amended C14: two branches at different objects, one pull reference, and
a have-set of one object. -/
theorem C14_want_lines_witness :
    ∃ ds : List Str, ds ≠ [] ∧ ds.Pairwise (fun a b => strLess a b = true) ∧
      (∀ x, x ∈ ds ↔
        ∃ e ∈ advTwoBranches.entries, HasPrefix e.1 (lit "refs/pull/") = false ∧ e.2 = x ∧
          havesC.has x = false) ∧
      (Fetch (envOf advTwoBranches) urlAlice havesC).requests =
        [⟨lit "GET", urlAlice ++ lit "/info/refs?service=git-upload-pack", []⟩,
          ⟨lit "POST", urlAlice ++ lit "/git-upload-pack",
            goWantFrames ds ++ lit "0000" ++ haveSection havesC.keys ++
              lit "0009done\n"⟩] :=
  C14_want_lines (envOf advTwoBranches) urlAlice havesC advTwoBranches
    ⟨rfl, rfl, rfl, rfl, rfl⟩ (by decide) (by decide)

/-! ## The loop of `Fetcher.Run` -/

theorem runLoop_append (pre post : List IterEnv) :
    ∀ (f : Fetcher) (events : List Event), (runLoop f pre events).result = none →
      runLoop f (pre ++ post) events =
        runLoop (runLoop f pre events).f post (runLoop f pre events).events := by
  induction pre with
  | nil => intro f events _; rfl
  | cons it pre ih =>
    intro f events h
    simp only [List.cons_append, runLoop] at h ⊢
    cases hr : (RunIter f it).result with
    | some r => simp [hr] at h
    | none =>
      simp only [hr] at h ⊢
      exact ih _ _ h

/-- The loop run for `pre` and then for one more pass. -/
theorem Run_snoc (f : Fetcher) (pre post : List IterEnv) (it : IterEnv)
    (hpre : (Fetcher.Run f pre).result = none) :
    Fetcher.Run f (pre ++ it :: post) =
      match (RunIter (Fetcher.Run f pre).f it).result with
      | some r =>
        ⟨(RunIter (Fetcher.Run f pre).f it).f,
          (Fetcher.Run f pre).events ++ (RunIter (Fetcher.Run f pre).f it).events, some r⟩
      | none =>
        runLoop (RunIter (Fetcher.Run f pre).f it).f post
          ((Fetcher.Run f pre).events ++ (RunIter (Fetcher.Run f pre).f it).events) := by
  unfold Fetcher.Run at hpre ⊢
  rw [runLoop_append pre (it :: post) _ _ hpre]
  rfl

theorem RunIter_result_nil (f : Fetcher) (it : IterEnv)
    (h : (RunIter f it).result = some none) :
    it.closing ≠ 0 ∧ (RunIter f it).events = [] ∧ (RunIter f it).f = f := by
  unfold RunIter at h ⊢
  by_cases hc : it.closing = 0
  swap
  · simp [hc]
  exfalso
  simp only [hc, ne_eq, not_true_eq_false, if_false] at h
  cases hg : it.gate with
  | false => simp [hg] at h
  | true =>
    simp only [hg, Bool.not_true, Bool.false_eq_true, if_false] at h
    cases hp : it.popErr with
    | some e => simp [hp] at h
    | none =>
      simp only [hp] at h
      by_cases hn : it.popName = []
      · simp [hn] at h
      · simp only [hn, if_false] at h
        cases he : (Fetcher.Fetch f it.fetchEnv it.popName it.popParent).err with
        | some e => simp [he] at h
        | none => simp [he] at h

theorem runLoop_returns_nil (its : List IterEnv) :
    ∀ (f : Fetcher) (events : List Event), (runLoop f its events).result = some none →
      ∃ p c q, its = p ++ c :: q ∧ c.closing ≠ 0 ∧ (runLoop f p events).result = none ∧
        (runLoop f its events).events = (runLoop f p events).events ∧
        (runLoop f its events).f = (runLoop f p events).f := by
  induction its with
  | nil => intro f events h; simp [runLoop] at h
  | cons it its ih =>
    intro f events h
    simp only [runLoop] at h ⊢
    cases hr : (RunIter f it).result with
    | some r =>
      simp only [hr, Option.some.injEq] at h ⊢
      subst h
      obtain ⟨hc, hev, hf⟩ := RunIter_result_nil f it hr
      refine ⟨[], it, its, rfl, hc, rfl, ?_, ?_⟩
      · simp [runLoop, hev]
      · simp [runLoop, hf]
    | none =>
      simp only [hr] at h ⊢
      obtain ⟨p, c, q, hits, hc, hres, hev, hf⟩ := ih _ _ h
      refine ⟨it :: p, c, q, by rw [hits]; rfl, hc, ?_, ?_, ?_⟩
      · simp only [runLoop, hr]; exact hres
      · simp only [runLoop, hr]; exact hev
      · simp only [runLoop, hr]; exact hf

/-- C12: in a run of `Fetcher.Run` that is still in its loop after the passes `pre`, let the
next pass find the flag clear and the gate open.  If `f.q.Pop()` returns the error `e`, or
it returns a non-empty name without error and `Fetcher.Fetch` on that unit returns the
error `e`, then `Run` returns `e` in that pass, whatever passes might have come after: the
last calls it made are that pop (and that fetch), so the queue is not popped again and the
unit is not fetched again.  And whenever `Run` returns nil, it does so in a pass that found
the closing flag set, having made no call in that pass. -/
theorem C12_run_returns_errors (f : Fetcher) (pre post : List IterEnv) (it : IterEnv)
    (e : Error) (hpre : (Fetcher.Run f pre).result = none)
    (hc : it.closing = 0) (hg : it.gate = true)
    (herr : it.popErr = some e ∨
      (it.popErr = none ∧ it.popName ≠ [] ∧
        (Fetcher.Fetch (Fetcher.Run f pre).f it.fetchEnv it.popName it.popParent).err
          = some e)) :
    (Fetcher.Run f (pre ++ it :: post)).result = some (some e) ∧
      ((it.popErr = some e ∧
          (Fetcher.Run f (pre ++ it :: post)).events =
            (Fetcher.Run f pre).events ++ [Event.pop it.popName it.popParent (some e)]) ∨
        (it.popErr = none ∧
          (Fetcher.Run f (pre ++ it :: post)).events =
            (Fetcher.Run f pre).events ++
              [Event.pop it.popName it.popParent none,
                Event.fetch it.popName it.popParent (some e)])) ∧
      ∀ its, (Fetcher.Run f its).result = some none →
        ∃ p c q, its = p ++ c :: q ∧ c.closing ≠ 0 ∧ (Fetcher.Run f p).result = none ∧
          (Fetcher.Run f its).events = (Fetcher.Run f p).events := by
  refine ⟨?_, ?_, ?_⟩
  · rw [Run_snoc f pre post it hpre]
    rcases herr with hp | ⟨hp, hn, hf⟩
    · simp [RunIter, hc, hg, hp]
    · simp [RunIter, hc, hg, hp, hn, hf]
  · rw [Run_snoc f pre post it hpre]
    rcases herr with hp | ⟨hp, hn, hf⟩
    · exact Or.inl ⟨hp, by simp [RunIter, hc, hg, hp]⟩
    · exact Or.inr ⟨hp, by simp [RunIter, hc, hg, hp, hn, hf]⟩
  · intro its h
    obtain ⟨p, c, q, hits, hcl, hres, hev, -⟩ := runLoop_returns_nil its _ _ h
    exact ⟨p, c, q, hits, hcl, hres, hev⟩

/-- Witness for C12: a quiet pass, then a pass whose fetch of `alice/repo` fails in the
driver; `Run` returns that error although another pass could follow. -/
theorem C12_run_returns_errors_witness :
    (Fetcher.Run (fetcherOf ixEmpty)
        ([iterQuiet] ++ iterPop (lit "alice/repo") none envDriverFails :: [iterQuiet])).result
      = some (some ⟨lit "GET /info/refs: 404"⟩) :=
  (C12_run_returns_errors (fetcherOf ixEmpty) [iterQuiet] [iterQuiet]
    (iterPop (lit "alice/repo") none envDriverFails) ⟨lit "GET /info/refs: 404"⟩
    rfl rfl rfl (Or.inr ⟨rfl, by decide, rfl⟩)).1

theorem wrapInt64_of_range (z : Int) (h1 : -9223372036854775808 ≤ z)
    (h2 : z < 9223372036854775808) : wrapInt64 z = z := by
  unfold wrapInt64
  omega

/-- C13, as stated, fails for the counter: `sleep` is an `int64`; when it holds the largest
`int64`, a pass with the gate closed leaves it at the smallest `int64`, not at one more. -/
theorem C13_counterexample :
    (Fetcher.Run fetcherAtMax []).result = none ∧
      (Fetcher.Run fetcherAtMax []).f.exp (lit "sleep") = 9223372036854775807 ∧
      (Fetcher.Run fetcherAtMax ([] ++ [iterQuiet])).events = [Event.sleep] ∧
      (Fetcher.Run fetcherAtMax ([] ++ [iterQuiet])).f.exp (lit "sleep") =
        -9223372036854775808 ∧
      (Fetcher.Run fetcherAtMax ([] ++ [iterQuiet])).f.exp (lit "sleep") ≠
        (Fetcher.Run fetcherAtMax []).f.exp (lit "sleep") + 1 := by
  decide

/-- C13, amended: in a run of `Fetcher.Run` that is still in its loop after the passes
`pre`, a pass that finds the closing flag clear and the schedule gate closed makes one call
only, the five-minute wait: the queue is not popped and no fetch is started; the counter
`sleep` is incremented by one as an `int64`, that is, it goes up by exactly one unless it
holds the largest `int64`, from which it wraps around; every other counter, the index and
the bucket stay as they were, and the loop goes on.  And a pass in which the queue is popped
is a pass in which the gate was open. -/
theorem C13_quiet_pass (f : Fetcher) (pre : List IterEnv) (it : IterEnv)
    (hpre : (Fetcher.Run f pre).result = none) (hc : it.closing = 0)
    (hg : it.gate = false) :
    (Fetcher.Run f (pre ++ [it])).events = (Fetcher.Run f pre).events ++ [Event.sleep] ∧
      (Fetcher.Run f (pre ++ [it])).f.exp (lit "sleep") =
        wrapInt64 ((Fetcher.Run f pre).f.exp (lit "sleep") + 1) ∧
      (-9223372036854775808 ≤ (Fetcher.Run f pre).f.exp (lit "sleep") →
        (Fetcher.Run f pre).f.exp (lit "sleep") < 9223372036854775807 →
        (Fetcher.Run f (pre ++ [it])).f.exp (lit "sleep") =
          (Fetcher.Run f pre).f.exp (lit "sleep") + 1) ∧
      (∀ k, k ≠ lit "sleep" →
        (Fetcher.Run f (pre ++ [it])).f.exp k = (Fetcher.Run f pre).f.exp k) ∧
      (Fetcher.Run f (pre ++ [it])).f.i = (Fetcher.Run f pre).f.i ∧
      (Fetcher.Run f (pre ++ [it])).f.bucket = (Fetcher.Run f pre).f.bucket ∧
      (Fetcher.Run f (pre ++ [it])).result = none ∧
      ∀ (g : Fetcher) (c : IterEnv) (name parent : Str) (err : Option Error),
        Event.pop name parent err ∈ (RunIter g c).events → c.gate = true ∧ c.closing = 0 := by
  have hit : RunIter (Fetcher.Run f pre).f it =
      ⟨{ (Fetcher.Run f pre).f with exp := (Fetcher.Run f pre).f.exp.add (lit "sleep") 1 },
        [Event.sleep], none⟩ := by
    simp [RunIter, hc, hg]
  have hadd : (Fetcher.Run f pre).f.exp.add (lit "sleep") 1 (lit "sleep") =
      wrapInt64 ((Fetcher.Run f pre).f.exp (lit "sleep") + 1) := by
    simp [Counters.add]
  rw [Run_snoc f pre [] it hpre, hit]
  refine ⟨rfl, hadd, ?_, ?_, rfl, rfl, rfl, ?_⟩
  · intro h1 h2
    show (Fetcher.Run f pre).f.exp.add (lit "sleep") 1 (lit "sleep") = _
    rw [hadd, wrapInt64_of_range _ (by omega) (by omega)]
  · intro k hk
    show (Fetcher.Run f pre).f.exp.add (lit "sleep") 1 k = _
    simp [Counters.add, hk]
  · intro g c name parent err hmem
    unfold RunIter at hmem
    by_cases hcl : c.closing = 0
    swap
    · simp [hcl] at hmem
    cases hgate : c.gate with
    | false => simp [hcl, hgate] at hmem
    | true => exact ⟨rfl, hcl⟩

/-- Witness for the amended C13: a quiet pass as the second pass of a run; the counter
`sleep` goes from 1 to 2. -/
theorem C13_quiet_pass_witness :
    (Fetcher.Run (fetcherOf ixEmpty) ([iterQuiet] ++ [iterQuiet])).events =
        (Fetcher.Run (fetcherOf ixEmpty) [iterQuiet]).events ++ [Event.sleep] ∧
      (Fetcher.Run (fetcherOf ixEmpty) ([iterQuiet] ++ [iterQuiet])).f.exp (lit "sleep") =
        (Fetcher.Run (fetcherOf ixEmpty) [iterQuiet]).f.exp (lit "sleep") + 1 ∧
      (Fetcher.Run (fetcherOf ixEmpty) ([iterQuiet] ++ [iterQuiet])).f.exp (lit "sleep") = 2 :=
  ⟨(C13_quiet_pass (fetcherOf ixEmpty) [iterQuiet] iterQuiet rfl rfl rfl).1,
    (C13_quiet_pass (fetcherOf ixEmpty) [iterQuiet] iterQuiet rfl rfl rfl).2.2.1
      (by decide) (by decide),
    by decide⟩

end Gitarchive
